import Mathlib

/-!
# Verification of the `usnan_fuse` repository

A shallow embedding, in Lean 4, of the parts of the `usnan_fuse` sources that
the specification's claims are about:

* `src/usnan_fuse/utils.py`   — `deduplicate_names`, `_sanitize`, `_format_timestamp`
* `src/usnan_fuse/cache.py`   — `DownloadCache` (`is_cached`, `cached_size`,
  `ensure_downloaded`, `list_entries`, `resolve_path`, `_unwrap`, `_evict_if_needed`)
* `src/usnan_fuse/catalog.py` — the Published version-map construction of
  `DatasetCatalog.get_listing`
* `src/usnan_fuse/fs.py`      — `NMRHubFS` (`_parse_path`, `getattr`, `readdir`,
  `open`, and the thirteen mutating operations)

Python dictionaries are modelled as insertion-ordered association lists, the
on-disk file tree as an inductive tree of directories and files, and machine
file sizes / timestamps as `Nat`.  The model filesystem is symlink-free and
contains exactly the cache root's subtree; these scoping choices are noted at
the definitions they affect.
-/

namespace UsnanFuse

/-! ## Association-list dictionaries (Python `dict`, insertion ordered) -/

/-- `m[k]` lookup on an insertion-ordered dictionary: first binding wins
(keys are unique in states reachable by the code, so this is `dict.get`). -/
def dictGet? {κ α : Type} [DecidableEq κ] (k : κ) : List (κ × α) → Option α
  | [] => none
  | p :: r => if p.1 = k then some p.2 else dictGet? k r

/-- `m.get(k, d)` lookup with default. -/
def dictGetD {κ α : Type} [DecidableEq κ] (k : κ) (m : List (κ × α)) (d : α) : α :=
  (dictGet? k m).getD d

/-- `m[k] = v` assignment: update the existing binding in place, else append. -/
def dictInsert {κ α : Type} [DecidableEq κ] (k : κ) (v : α) : List (κ × α) → List (κ × α)
  | [] => [(k, v)]
  | p :: r => if p.1 = k then (k, v) :: r else p :: dictInsert k v r

/-- `m.setdefault(k, []).append(v)`: append `v` to the list bound at `k`,
creating the binding at the end if absent (as in `utils.deduplicate_names`). -/
def dictPush {κ α : Type} [DecidableEq κ] (k : κ) (v : α) : List (κ × List α) → List (κ × List α)
  | [] => [(k, [v])]
  | p :: r => if p.1 = k then (p.1, p.2 ++ [v]) :: r else p :: dictPush k v r

/-- Keys of a dictionary, in insertion order. -/
def dictKeys {κ α : Type} (m : List (κ × α)) : List κ := m.map (·.1)

/-- Delete the binding of `k` (first occurrence), as `del m[k]` / `unlink`. -/
def removeKey {κ α : Type} [DecidableEq κ] (k : κ) : List (κ × α) → List (κ × α)
  | [] => []
  | p :: r => if p.1 = k then r else p :: removeKey k r

/-! ## Decimal rendering of numeric identifiers

The sources use `str(dataset_id)` / f-strings to turn the numeric dataset
identifier into a path component or a name suffix.  We embed the decimal
rendering explicitly so that its two properties the proofs need — every
character is a digit, and the rendering is injective — are provable. -/

/-- The character of a single decimal digit. -/
def digitChar (d : Nat) : Char := Char.ofNat (48 + d)

/-- Decimal digits of `n`, most significant first (recursive
specification). -/
def natDigitsSpec (n : Nat) : List Char :=
  if _h : n < 10 then [digitChar n] else natDigitsSpec (n / 10) ++ [digitChar (n % 10)]
  decreasing_by exact Nat.div_lt_self (by omega) (by omega)

/-- Fuel-driven digit accumulator (structural recursion, so that concrete
renderings reduce definitionally). -/
def natDigitsGo (fuel : Nat) (n : Nat) (acc : List Char) : List Char :=
  match fuel with
  | 0 => acc
  | fuel + 1 =>
      if n < 10 then digitChar n :: acc
      else natDigitsGo fuel (n / 10) (digitChar (n % 10) :: acc)

/-- Decimal digits of `n`, most significant first (the digits of `str(n)`). -/
def natDigits (n : Nat) : List Char := natDigitsGo (n + 1) n []

theorem natDigitsGo_spec (fuel : Nat) :
    ∀ n acc, n ≤ fuel → natDigitsGo (fuel + 1) n acc = natDigitsSpec n ++ acc := by
  induction fuel with
  | zero =>
    intro n acc hn
    interval_cases n
    simp [natDigitsGo, natDigitsSpec]
  | succ f ih =>
    intro n acc hn
    rw [natDigitsGo]
    by_cases h10 : n < 10
    · rw [if_pos h10, natDigitsSpec, dif_pos h10]
      rfl
    · rw [if_neg h10]
      have hdiv : n / 10 ≤ f := by
        have := Nat.div_lt_self (show 0 < n by omega) (show 1 < 10 by omega)
        omega
      rw [ih (n / 10) _ hdiv]
      conv_rhs => rw [natDigitsSpec]
      rw [dif_neg h10, List.append_assoc]
      rfl

theorem natDigits_eq_spec (n : Nat) : natDigits n = natDigitsSpec n := by
  rw [natDigits, natDigitsGo_spec n n [] (Nat.le_refl n), List.append_nil]

/-- `str(n)` for a natural number `n` (Python renders ids in decimal). -/
def natToString (n : Nat) : String := (natDigits n).asString

theorem digitChar_isDigit {d : Nat} (h : d < 10) : (digitChar d).isDigit = true := by
  interval_cases d <;> decide

theorem natDigitsSpec_digits (n : Nat) : ∀ c ∈ natDigitsSpec n, c.isDigit = true := by
  induction n using Nat.strong_induction_on with
  | _ n ih =>
    rw [natDigitsSpec]
    split
    · intro c hc
      simp only [List.mem_singleton] at hc
      subst hc; exact digitChar_isDigit (by omega)
    · intro c hc
      rcases List.mem_append.1 hc with h1 | h1
      · exact ih (n / 10) (Nat.div_lt_self (by omega) (by omega)) c h1
      · simp only [List.mem_singleton] at h1
        subst h1; exact digitChar_isDigit (Nat.mod_lt _ (by omega))

/-- Value of a digit list, used to invert `natDigits`. -/
def digitsVal (l : List Char) : Nat := l.foldl (fun a c => 10 * a + (c.toNat - 48)) 0

theorem digitsVal_append (l₁ l₂ : List Char) :
    digitsVal (l₁ ++ l₂) = (l₂.foldl (fun a c => 10 * a + (c.toNat - 48)) (digitsVal l₁)) := by
  simp [digitsVal, List.foldl_append]

theorem digitChar_toNat {d : Nat} (h : d < 10) : (digitChar d).toNat = 48 + d := by
  interval_cases d <;> decide

theorem natDigits_digits (n : Nat) : ∀ c ∈ natDigits n, c.isDigit = true := by
  rw [natDigits_eq_spec]
  exact natDigitsSpec_digits n

theorem digitsVal_natDigitsSpec (n : Nat) : digitsVal (natDigitsSpec n) = n := by
  induction n using Nat.strong_induction_on with
  | _ n ih =>
    rw [natDigitsSpec]
    split
    · next h =>
      simp [digitsVal, digitChar_toNat h]
    · next h =>
      rw [digitsVal_append, ih (n / 10) (Nat.div_lt_self (by omega) (by omega))]
      simp [digitChar_toNat (Nat.mod_lt n (show 0 < 10 by omega))]
      omega

theorem digitsVal_natDigits (n : Nat) : digitsVal (natDigits n) = n := by
  rw [natDigits_eq_spec]; exact digitsVal_natDigitsSpec n

theorem natDigits_injective : Function.Injective natDigits := by
  intro a b h
  have := digitsVal_natDigits a
  rw [h, digitsVal_natDigits] at this
  omega

theorem natToString_injective : Function.Injective natToString := by
  intro a b h
  apply natDigits_injective
  have h2 : (natDigits a).asString.data = (natDigits b).asString.data :=
    congrArg String.data h
  simpa [List.asString] using h2

theorem natToString_digits (n : Nat) : ∀ c ∈ (natToString n).data, c.isDigit = true := by
  intro c hc
  apply natDigits_digits n
  simpa [natToString, List.asString] using hc

/-! ## `utils.py` — sanitisation, timestamp formatting, `deduplicate_names` -/

/-- Dataset record as consumed by `utils.deduplicate_names` and
`catalog.get_listing`: numeric id, optional raw name, optional ISO
experiment-start timestamp, and (Published only) recorded versions
(`v.version` is the version number, `v.dataset.id` the version's own
dataset identifier, flattened here to `dataset_id`). -/
structure VRef where
  version : Nat
  dataset_id : Nat
deriving DecidableEq

structure DS where
  id : Nat
  dataset_name : Option String
  experiment_start_time : Option String
  versions : List VRef := []

/-- Python `str.strip()` whitespace characters (ASCII subset of the model). -/
def isPyWs (c : Char) : Bool :=
  c = ' ' || c = '\t' || c = '\n' || c = '\x0d' || c = '\x0b' || c = '\x0c'

/-- `str.strip()`: drop leading and trailing whitespace. -/
def stripWsList (l : List Char) : List Char :=
  ((l.dropWhile isPyWs).reverse.dropWhile isPyWs).reverse

/-- `utils._sanitize`: replace `/` and NUL by `_`, then strip whitespace. -/
def sanitize (s : String) : String :=
  (stripWsList (s.data.map (fun c => if c = '/' || c = '\x00' then '_' else c))).asString

/-- Offset tail `HH:MM` of an ISO timestamp. -/
def validOffsetTail : List Char → Bool
  | [h1, h2, ':', m1, m2] =>
      h1.isDigit && h2.isDigit && m1.isDigit && m2.isDigit &&
      (10 * (h1.toNat - 48) + (h2.toNat - 48) < 24) && (10 * (m1.toNat - 48) + (m2.toNat - 48) < 60)
  | _ => false

/-- After the seconds: optional fraction, then optional offset. -/
def validFracOffset : List Char → Bool
  | [] => true
  | '.' :: r =>
      let digs := r.takeWhile (·.isDigit)
      decide (0 < digs.length) && decide (digs.length ≤ 6) &&
        (match r.drop digs.length with
         | [] => true
         | '+' :: t => validOffsetTail t
         | '-' :: t => validOffsetTail t
         | _ => false)
  | '+' :: r => validOffsetTail r
  | '-' :: r => validOffsetTail r
  | _ => false

/-- After the minutes: optional `:SS`, then fraction/offset. -/
def validIsoTail : List Char → Bool
  | [] => true
  | ':' :: s1 :: s2 :: r =>
      s1.isDigit && s2.isDigit && (10 * (s1.toNat - 48) + (s2.toNat - 48) < 60) && validFracOffset r
  | '+' :: r => validOffsetTail r
  | '-' :: r => validOffsetTail r
  | _ => false

/-- Modelled from the spec: validity of the `datetime.fromisoformat` input
(the external standard library is not part of this repository's sources).
Accepts `YYYY-MM-DD<sep>HH:MM` with optional seconds, fraction and UTC
offset, checking digit positions and field ranges. -/
def validIso (l : List Char) : Bool :=
  match l with
  | y1 :: y2 :: y3 :: y4 :: '-' :: m1 :: m2 :: '-' :: d1 :: d2 :: sep :: h1 :: h2 :: ':' :: n1 :: n2 :: rest =>
      y1.isDigit && y2.isDigit && y3.isDigit && y4.isDigit &&
      m1.isDigit && m2.isDigit && d1.isDigit && d2.isDigit &&
      h1.isDigit && h2.isDigit && n1.isDigit && n2.isDigit &&
      (sep = 'T' || sep = ' ' || sep = 't') &&
      (let mo := 10 * (m1.toNat - 48) + (m2.toNat - 48)
       let da := 10 * (d1.toNat - 48) + (d2.toNat - 48)
       let ho := 10 * (h1.toNat - 48) + (h2.toNat - 48)
       let mi := 10 * (n1.toNat - 48) + (n2.toNat - 48)
       decide (1 ≤ mo) && decide (mo ≤ 12) && decide (1 ≤ da) && decide (da ≤ 31) &&
       decide (ho ≤ 23) && decide (mi ≤ 59)) &&
      validIsoTail rest
  | _ => false

/-- `utils._format_timestamp`: replace `Z` by `+00:00`, parse with
`datetime.fromisoformat` (modelled by `validIso`) and render
`strftime("%Y-%m-%d %H:%M")`, i.e. the date part, a space, and the
hour-minute part of the (zero-padded) input; `none` on absent or
unparseable input. -/
def formatTimestamp : Option String → Option String
  | none => none
  | some s =>
      if s = "" then none
      else
        let cleaned := s.data.flatMap (fun c => if c = 'Z' then "+00:00".data else [c])
        if validIso cleaned then
          some ((cleaned.take 10).asString ++ " " ++ ((cleaned.drop 11).take 5).asString)
        else none

/-- The base name of a dataset before grouping:
`getattr(ds, "dataset_name", None) or f"dataset_{ds.id}"`, sanitised. -/
def rawName (ds : DS) : String :=
  match ds.dataset_name with
  | none => "dataset_" ++ natToString ds.id
  | some "" => "dataset_" ++ natToString ds.id
  | some n => n

def baseName (ds : DS) : String := sanitize (rawName ds)

/-- Grouping of the datasets by sanitised base name
(`name_groups.setdefault(safe_name, []).append(ds)`). -/
def nameGroups (l : List DS) : List (String × List DS) :=
  l.foldl (fun acc ds => dictPush (baseName ds) ds acc) []

/-- The display string tried inside a collision group:
`f"{name} ({ts_str})" if ts_str else name`. -/
def displayOf (name : String) (ds : DS) : String :=
  match formatTimestamp ds.experiment_start_time with
  | some ts => name ++ " (" ++ ts ++ ")"
  | none => name

/-- Sub-grouping of one collision group by display string
(`timestamped.setdefault(display, []).append(ds)`). -/
def tsGroups (name : String) (group : List DS) : List (String × List DS) :=
  group.foldl (fun acc ds => dictPush (displayOf name ds) ds acc) []

/-- Assignments produced for one timestamp sub-group: a singleton keeps the
display string; otherwise every member gets `f"{display} [{ds.id}]"`. -/
def assignSub (display : String) (sub : List DS) : List (Nat × String) :=
  match sub with
  | [d] => [(d.id, display)]
  | _ => sub.map (fun d => (d.id, display ++ " [" ++ natToString d.id ++ "]"))

/-- Assignments produced for one base-name group, in the order the code
writes them into `result`. -/
def assignGroup (name : String) (group : List DS) : List (Nat × String) :=
  match group with
  | [d] => [(d.id, name)]
  | _ => (tsGroups name group).flatMap (fun p => assignSub p.1 p.2)

/-- `utils.deduplicate_names`: the `result` dictionary, built by performing
the code's `result[...] = ...` assignments group by group. -/
def deduplicate_names (l : List DS) : List (Nat × String) :=
  (nameGroups l).foldl
    (fun res p => (assignGroup p.1 p.2).foldl (fun r q => dictInsert q.1 q.2 r) res) []

/-! ## Structural string primitives

The embedding implements the string operations the sources use
(`str.split`, `"/".join`, `str.startswith`, `str.replace` and
lexicographic comparison) by structural recursion over the character
lists, so that every concrete state evaluates definitionally. -/

/-- `s.split("/")` on a character list: empty fields are preserved, the
empty string yields one empty field (CPython semantics). -/
def splitSlash : List Char → List (List Char)
  | [] => [[]]
  | '/' :: r => [] :: splitSlash r
  | c :: r =>
      match splitSlash r with
      | [] => [[c]]
      | g :: gs => (c :: g) :: gs

/-- `s.split("/")`. -/
def splitSlashStr (s : String) : List String := (splitSlash s.data).map List.asString

/-- `"/".join(l)`. -/
def joinSlash : List String → String
  | [] => ""
  | a :: r => r.foldl (fun acc s => acc ++ "/" ++ s) a

/-- `s.startswith("/")`. -/
def startsWithSlash (s : String) : Bool :=
  match s.data with
  | '/' :: _ => true
  | _ => false

/-- `a.startswith(b)` for whole strings, i.e. `str(x).startswith(str(y))`. -/
def strHasPre (a b : String) : Bool := List.isPrefixOf a.data b.data

/-- Lexicographic comparison of character lists by code point, shorter
strict-prefix first (Python `str` ordering). -/
def charListLe : List Char → List Char → Bool
  | [], _ => true
  | _ :: _, [] => false
  | a :: as, b :: bs => if a = b then charListLe as bs else decide (a.val < b.val)

/-- Python `a <= b` on strings. -/
def strLe (a b : String) : Bool := charListLe a.data b.data

/-! ## `cache.py` — the on-disk download cache

The model filesystem is the cache root's subtree: an entry per immediate
child of the cache root (name, last-modified time, file tree).  The model is
symlink-free; sizes and mtimes are natural numbers.  The cache root lives at
the absolute path `/cacheroot`. -/

/-- A node of the on-disk file tree: a regular file with a size, or a
directory with named children (in directory order). -/
inductive FSNode where
  | file (size : Nat)
  | dir (children : List (String × FSNode))

/-- An immediate child of the cache root directory. -/
structure CEntry where
  name : String
  mtime : Nat
  node : FSNode

/-- The state of the cache root directory (`DownloadCache._root`). -/
structure CacheState where
  entries : List CEntry

/-- The single component of the cache root's absolute path. -/
def cacheRootName : String := "cacheroot"

/-- `str(path)` of an absolute path given by its components. -/
def pathStr (comps : List String) : String :=
  "/" ++ joinSlash comps

/-- Components of a relative path string as `pathlib` parses them: split on
`/`, dropping empty components and `.` (both are normalised away at
construction). -/
def parseComponents (s : String) : List String :=
  (splitSlashStr s).filter (fun c => c ≠ "" && c ≠ ".")

/-- Lexical `..` processing of `Path.resolve()` (exact for the symlink-free
model world): each `..` removes the last component, stopping at `/`. -/
def normAbs (comps : List String) : List String :=
  comps.foldl (fun acc c => if c = ".." then acc.dropLast else acc ++ [c]) []

/-- Lookup of a path (relative to a node) in the file tree. -/
def nodeLookup : FSNode → List String → Option FSNode
  | n, [] => some n
  | .file _, _ :: _ => none
  | .dir cs, c :: rest =>
      match dictGet? c cs with
      | some n => nodeLookup n rest
      | none => none

/-- Find the cache-root child named `name`. -/
def lookupEntry (st : CacheState) (name : String) : Option CEntry :=
  st.entries.find? (fun e => e.name = name)

/-- The cache root viewed as a directory node. -/
def rootNode (st : CacheState) : FSNode :=
  .dir (st.entries.map (fun e => (e.name, e.node)))

/-- Lookup of an absolute path in the model world.  The world contains
exactly the cache root's subtree; paths outside it resolve to nothing. -/
def absLookup (st : CacheState) (comps : List String) : Option FSNode :=
  match comps with
  | c :: rest => if c = cacheRootName then nodeLookup (rootNode st) rest else none
  | [] => none

/-- `path.exists()` in the model world. -/
def pathExists (st : CacheState) (comps : List String) : Bool :=
  (absLookup st comps).isSome

/-- `path.is_dir()` in the model world. -/
def isDirAt (st : CacheState) (comps : List String) : Bool :=
  match absLookup st comps with
  | some (.dir _) => true
  | _ => false

mutual

/-- Total recursive size of the files under a node
(`DownloadCache._dir_size`). -/
def nodeSize : FSNode → Nat
  | .file sz => sz
  | .dir cs => sizeChildren cs

/-- Sum of the sizes of a children list. -/
def sizeChildren : List (String × FSNode) → Nat
  | [] => 0
  | (_, n) :: r => nodeSize n + sizeChildren r

end

/-- The components of `DownloadCache._dataset_dir(id)`. -/
def datasetDirComps (dataset_id : Nat) : List String :=
  [cacheRootName, natToString dataset_id]

/-- `DownloadCache.is_cached`: the directory named by the id exists directly
under the root and is non-empty (`d.is_dir() and any(d.iterdir())`). -/
def is_cached (st : CacheState) (dataset_id : Nat) : Bool :=
  match lookupEntry st (natToString dataset_id) with
  | some e =>
      match e.node with
      | .dir cs => !cs.isEmpty
      | .file _ => false
  | none => false

/-- `DownloadCache.cached_size`: total size in bytes of a cached dataset, or
`none` if not cached. -/
def cached_size (st : CacheState) (dataset_id : Nat) : Option Nat :=
  match lookupEntry st (natToString dataset_id) with
  | some e =>
      match e.node with
      | .dir cs => if cs.isEmpty then none else some (sizeChildren cs)
      | .file _ => none
  | none => none

/-- `DownloadCache.resolve_path`: join the subpath under the dataset
directory (`pathlib` absolute-join semantics: a leading `/` replaces the
base), canonicalise, require `str(full).startswith(str(ds_dir))`, and
require existence on disk. -/
def resolve_path (st : CacheState) (dataset_id : Nat) (subpath : String) : Option (List String) :=
  let dsComps := datasetDirComps dataset_id
  let joined :=
    if startsWithSlash subpath then parseComponents subpath
    else dsComps ++ parseComponents subpath
  let full := normAbs joined
  if strHasPre (pathStr dsComps) (pathStr full) then
    if pathExists st full then some full else none
  else none

/-- Names of the immediate children of a directory node. -/
def childNames : FSNode → List String
  | .file _ => []
  | .dir cs => cs.map (·.1)

/-- `DownloadCache.list_entries`: lexicographically sorted immediate
children of `ds_dir / subpath`; empty if the target is not a directory.
(The OS resolves `..` components at lookup, which for the symlink-free
model equals lexical normalisation.) -/
def list_entries (st : CacheState) (dataset_id : Nat) (subpath : String) : List String :=
  let target :=
    if subpath = "" then datasetDirComps dataset_id
    else if startsWithSlash subpath then parseComponents subpath
    else datasetDirComps dataset_id ++ parseComponents subpath
  let full := normAbs target
  match absLookup st full with
  | some (.dir cs) => List.insertionSort (fun a b => strLe a b = true) (cs.map (·.1))
  | _ => []

/-! ### `DownloadCache._unwrap`

The unwrap transformation runs inside the `try` block of
`ensure_downloaded`; any `OSError` it raises (deleting a directory named
`experiments.csv` with `unlink`, or a `rename` collision while moving
children up) propagates to the cleanup handler, so the model makes it
fallible.  POSIX `rename` overwrites an existing file with a file and an
empty directory with a directory, and fails in the remaining cases. -/

/-- Move the children of the single experiment subdirectory (named `ename`)
up into the dataset directory, one `child.rename(ds_dir / child.name)` at a
time.  `top` is the current children list of the dataset directory (still
containing the experiment subdirectory itself). -/
def moveUp (ename : String) : List (String × FSNode) → List (String × FSNode) →
    Except Unit (List (String × FSNode))
  | [], top => .ok (removeKey ename top)
  | (n, node) :: rest, top =>
      if n = ename then .error ()   -- rename onto the traversed directory itself fails
      else
        match dictGet? n top with
        | none => moveUp ename rest (top ++ [(n, node)])
        | some (.file _) =>
            match node with
            | .file _ => moveUp ename rest (dictInsert n node top)
            | .dir _ => .error ()   -- NotADirectoryError
        | some (.dir d) =>
            match node with
            | .file _ => .error ()  -- IsADirectoryError
            | .dir _ =>
                if d.isEmpty then moveUp ename rest (dictInsert n node top)
                else .error ()      -- ENOTEMPTY

/-- `DownloadCache._unwrap` over the children of the freshly downloaded
directory: delete `experiments.csv` if present; if exactly one subdirectory
remains, move its contents up and remove it; otherwise leave the tree
as-is. -/
def unwrap (cs : List (String × FSNode)) : Except Unit (List (String × FSNode)) := do
  let cs ←
    match dictGet? "experiments.csv" cs with
    | some (.file _) => pure (removeKey "experiments.csv" cs)
    | some (.dir _) => .error ()    -- Path.unlink on a directory raises
    | none => pure cs
  let subdirs := cs.filter (fun p => match p.2 with | .dir _ => true | .file _ => false)
  match subdirs with
  | [(ename, .dir echildren)] => moveUp ename echildren cs
  | _ => pure cs                     -- unexpected structure — leave as-is

/-! ### `DownloadCache._evict_if_needed` -/

/-- Acceptance of `int(name)` in Python (used by eviction to recognise
dataset directories): optional surrounding whitespace, optional sign, then
decimal digits with single underscores allowed between digits. -/
def digitsRunTail : List Char → Bool
  | [] => true
  | c :: r =>
      if c = '_' then
        match r with
        | [] => false
        | c2 :: r2 => c2.isDigit && digitsRunTail r2
      else c.isDigit && digitsRunTail r

def digitsRun : List Char → Bool
  | [] => false
  | c :: r => c.isDigit && digitsRunTail r

def pyIntParseable (s : String) : Bool :=
  match stripWsList s.data with
  | [] => false
  | c :: r => if c = '+' || c = '-' then digitsRun r else digitsRun (c :: r)

/-- An eviction candidate: a cache-root child that is a directory whose name
parses as a dataset identifier. -/
def isCandidate (e : CEntry) : Bool :=
  (match e.node with | .dir _ => true | .file _ => false) && pyIntParseable e.name

/-- Total size of the candidate entries. -/
def entriesTotal (l : List CEntry) : Nat :=
  (l.map (fun e => nodeSize e.node)).sum

/-- The eviction loop: walk the candidates sorted oldest-first and collect
the names to remove, stopping as soon as the running total is within
budget. -/
def evictNames (maxBytes : Nat) : Nat → List CEntry → List String
  | _, [] => []
  | total, e :: rest =>
      if total ≤ maxBytes then []
      else e.name :: evictNames maxBytes (total - nodeSize e.node) rest

/-- Candidates sorted ascending by mtime (Python's stable sort). -/
def sortByMtime (l : List CEntry) : List CEntry :=
  List.insertionSort (fun a b => a.mtime ≤ b.mtime) l

/-- `DownloadCache._evict_if_needed`: if the candidates' total size exceeds
the budget, remove whole dataset directories oldest-first until within
budget. -/
def evict (maxBytes : Nat) (st : CacheState) : CacheState :=
  let cands := st.entries.filter isCandidate
  let total := entriesTotal cands
  if total ≤ maxBytes then st
  else
    let doomed := evictNames maxBytes total (sortByMtime cands)
    ⟨st.entries.filter (fun e => !doomed.contains e.name)⟩

/-! ### `DownloadCache.ensure_downloaded` -/

/-- The failures `ensure_downloaded` can propagate. -/
inductive EnsureErr where
  | downloadFailed   -- the external `client.datasets.download` raised
  | unwrapFailed     -- `_unwrap` raised
  | rmtreeFailed     -- `shutil.rmtree` on a stale non-directory entry raised
deriving DecidableEq

/-- Result of one `ensure_downloaded` call: the returned dataset-directory
path or the propagated failure, the cache state afterwards, and the number
of invocations of the external download operation. -/
structure EnsureOut where
  res : Except EnsureErr (List String)
  cache : CacheState
  dls : Nat

/-- Replace the mtime of the root child named `name` (`ds_dir.touch()`). -/
def touchEntry (st : CacheState) (name : String) (now : Nat) : CacheState :=
  ⟨st.entries.map (fun e => if e.name = name then ⟨e.name, now, e.node⟩ else e)⟩

/-- Remove the root child named `name` (`shutil.rmtree` on a root child). -/
def removeEntry (st : CacheState) (name : String) : CacheState :=
  ⟨st.entries.filter (fun e => e.name ≠ name)⟩

/-- The download-install sequence of `ensure_downloaded` (temporary
directory, download, unwrap, atomic rename, eviction sweep), entered once
any stale entry is gone. -/
def ensureDownload (download : Except Unit (List (String × FSNode)))
    (tmpName : String) (now maxBytes : Nat)
    (st : CacheState) (dataset_id : Nat) : EnsureOut :=
  let dsName := natToString dataset_id
  let withTmp : CacheState := ⟨st.entries ++ [⟨tmpName, now, .dir []⟩]⟩
  match download with
  | .error _ => ⟨.error .downloadFailed, removeEntry withTmp tmpName, 1⟩
  | .ok content =>
      let populated : CacheState :=
        ⟨st.entries ++ [⟨tmpName, now, .dir content⟩]⟩
      match unwrap content with
      | .error _ => ⟨.error .unwrapFailed, removeEntry populated tmpName, 1⟩
      | .ok content' =>
          let installed : CacheState :=
            ⟨st.entries ++ [⟨dsName, now, .dir content'⟩]⟩
          ⟨.ok (datasetDirComps dataset_id), evict maxBytes installed, 1⟩

/-- `DownloadCache.ensure_downloaded`, sequential semantics.

`download` is the external download operation's outcome for this dataset:
the children it populates the temporary directory with, or a failure.
`tmpName` stands for the fresh name `tempfile.mkdtemp` picks (prefixed
`.dl-<id>-`, hence never a decimal identifier), and `now` for the current
clock.  The per-dataset lock is dropped (single-caller semantics); the
eviction sweep after a successful install is included. -/
def ensure_downloaded (download : Except Unit (List (String × FSNode)))
    (tmpName : String) (now maxBytes : Nat)
    (st : CacheState) (dataset_id : Nat) : EnsureOut :=
  let dsName := natToString dataset_id
  match lookupEntry st dsName with
  | some ⟨_, _, .dir cs⟩ =>
      if cs.isEmpty then
        -- stale empty directory: remove, then download afresh
        ensureDownload download tmpName now maxBytes (removeEntry st dsName) dataset_id
      else
        -- cache hit: touch the directory so LRU tracking stays current
        ⟨.ok (datasetDirComps dataset_id), touchEntry st dsName now, 0⟩
  | some ⟨_, _, .file _⟩ =>
      -- `shutil.rmtree` on a non-directory raises before anything else happens
      ⟨.error .rmtreeFailed, st, 0⟩
  | none => ensureDownload download tmpName now maxBytes st dataset_id

/-! ## `catalog.py` — the Published version map of `get_listing` -/

/-- The folder name `get_listing` uses for a dataset:
`name_map[ds.id]` (the `KeyError` case is unreachable because
`deduplicate_names` assigns a name to every input id). -/
def folderNameOf (name_map : List (Nat × String)) (ds : DS) : String :=
  match dictGet? ds.id name_map with
  | some n => n
  | none => ""

/-- The per-dataset version dictionary built by `get_listing` for the
Published category: `{"Original": ds.id}` followed by
`versions[f"v{v.version}"] = v.dataset.id` for each recorded version. -/
def buildVersions (ds : DS) : List (String × Nat) :=
  ds.versions.foldl
    (fun m v => dictInsert ("v" ++ natToString v.version) v.dataset_id m)
    [("Original", ds.id)]

/-- The `version_map` of a freshly built Published listing:
`version_map[folder_name] = versions` for each fetched dataset in order. -/
def buildVersionMap (datasets : List DS) : List (String × List (String × Nat)) :=
  let name_map := deduplicate_names datasets
  datasets.foldl
    (fun vm ds => dictInsert (folderNameOf name_map ds) (buildVersions ds) vm) []

/-! ## `fs.py` — the FUSE operation layer

The catalog is modelled as an immutable, TTL-fresh snapshot (`get_listing`
returns the cached listing unchanged while fresh, and a refresh never
touches the download cache), carrying exactly the data the operation layer
reads: per-category folder lookup, display timestamps and the Published
version map. -/

inductive Category where
  | PUBLIC | PUBLISHED | LAB_GROUP | MY_DATASETS
deriving DecidableEq

/-- The display name of a built-in category (`Category.value`). -/
def Category.val : Category → String
  | .PUBLIC => "Public Datasets"
  | .PUBLISHED => "Published Datasets"
  | .LAB_GROUP => "Lab Group Datasets"
  | .MY_DATASETS => "My Datasets"

/-- A category identifier: a built-in enum member or a custom directory
name. -/
inductive CategoryKey where
  | builtin (c : Category)
  | custom (n : String)
deriving DecidableEq

/-- `category_display_name`. -/
def displayName : CategoryKey → String
  | .builtin c => c.val
  | .custom n => n

/-- One category's listing as the operation layer reads it:
`folder_lookup` keeps only the dataset id of each folder's dataset. -/
structure ListingM where
  folder_lookup : List (String × Nat)
  timestamps : List (String × Nat)
  version_map : List (String × List (String × Nat))

/-- The immutable context of the operation layer: available categories,
per-category listing snapshot, and the mount time. -/
structure FSCtx where
  availableCats : List CategoryKey
  listings : CategoryKey → ListingM
  mountTime : Nat

/-- The result of `_parse_path` for the first component: `None` at the
root, the module-level `_SENTINEL` for an unrecognised top-level name, or a
resolved category key. -/
inductive ParsedCat where
  | root
  | sentinel
  | known (k : CategoryKey)
deriving DecidableEq

/-- `str.strip("/")`. -/
def stripSlashes (s : String) : String :=
  (((s.data.dropWhile (· = '/')).reverse.dropWhile (· = '/')).reverse).asString

/-- `NMRHubFS._resolve_category`: the first `Category` member whose value
matches, else a custom-directory name appearing in
`available_categories()`, else nothing (→ sentinel). -/
def resolveCategory (ctx : FSCtx) (name : String) : Option CategoryKey :=
  match [Category.PUBLIC, .PUBLISHED, .LAB_GROUP, .MY_DATASETS].find? (fun c => c.val = name) with
  | some c => some (.builtin c)
  | none =>
      if ctx.availableCats.contains (.custom name) then some (.custom name) else none

/-- `NMRHubFS._parse_path`: `(category, dataset_name, subpath)`. -/
def parse_path (ctx : FSCtx) (path : String) : ParsedCat × Option String × Option String :=
  let parts := if path = "/" then [] else splitSlashStr (stripSlashes path)
  let category : ParsedCat :=
    match parts with
    | [] => .root
    | p :: _ =>
        match resolveCategory ctx p with
        | some k => .known k
        | none => .sentinel
  let dataset_name := parts[1]?
  let subpath := if parts.length ≥ 3 then some (joinSlash (parts.drop 2)) else none
  (category, dataset_name, subpath)

/-- `subpath.split("/", 1)`: the leading segment, and the rest if any. -/
def splitFirst (s : String) : String × Option String :=
  match splitSlashStr s with
  | [] => (s, none)
  | [a] => (a, none)
  | a :: rest => (a, some (joinSlash rest))

/-- The stat result the operation layer serves: a directory entry with a
display mtime, or a regular-file entry with its size.  (The model tracks
mtimes only for cache-root children; stats served from deeper on-disk paths
carry a placeholder mtime, which no claim inspects.) -/
inductive Attr where
  | dirAttr (mtime : Nat)
  | fileAttr (size : Nat)
deriving DecidableEq

inductive Errno where
  | ENOENT | EISDIR | EROFS | EBADF
deriving DecidableEq

/-- An operation outcome: a FUSE errno (`FuseOSError`) or a propagated
cache exception. -/
inductive OpErr where
  | errno (e : Errno)
  | raised (e : EnsureErr)
deriving DecidableEq

/-- Mutable state owned by the operation layer: the download cache plus the
open-handle bookkeeping (`_open_fds`, `_next_fh`). -/
structure SysState where
  cache : CacheState
  open_fds : List (Nat × List String)
  next_fh : Nat

/-- Result of one operation: outcome, state afterwards, and the number of
external downloads the call performed. -/
structure OpOut (α : Type) where
  res : Except OpErr α
  st : SysState
  dls : Nat

/-- `NMRHubFS._resolve_version_id`: look the label up in the Published
listing's version map; `ENOENT` if absent.  Does not download. -/
def resolveVersionId (ctx : FSCtx) (dataset_name version_label : String) : Except OpErr Nat :=
  let listing := ctx.listings (.builtin .PUBLISHED)
  match dictGet? dataset_name listing.version_map with
  | none => .error (.errno .ENOENT)
  | some versions =>
      match dictGet? version_label versions with
      | none => .error (.errno .ENOENT)
      | some i => .ok i

/-- `NMRHubFS.getattr`.  By construction of the source it performs no
download and leaves the state unchanged; the model returns the state as
received and a download count of `0`. -/
def getattrOp (ctx : FSCtx) (st : SysState) (path : String) : OpOut Attr :=
  let (category, dataset_name, subpath) := parse_path ctx path
  match category with
  | .root => ⟨.ok (.dirAttr ctx.mountTime), st, 0⟩
  | .sentinel => ⟨.error (.errno .ENOENT), st, 0⟩
  | .known k =>
      if ¬ ctx.availableCats.contains k then ⟨.error (.errno .ENOENT), st, 0⟩
      else
        match dataset_name with
        | none => ⟨.ok (.dirAttr ctx.mountTime), st, 0⟩
        | some dsname =>
            let listing := ctx.listings k
            if (dictGet? dsname listing.folder_lookup).isNone then
              ⟨.error (.errno .ENOENT), st, 0⟩
            else
              match subpath with
              | none =>
                  ⟨.ok (.dirAttr (dictGetD dsname listing.timestamps ctx.mountTime)), st, 0⟩
              | some sub =>
                  if k = .builtin .PUBLISHED then
                    let (version_label, inner_path) := splitFirst sub
                    let versions := dictGetD dsname listing.version_map []
                    if (dictGet? version_label versions).isNone then
                      ⟨.error (.errno .ENOENT), st, 0⟩
                    else
                      match inner_path with
                      | none =>
                          ⟨.ok (.dirAttr (dictGetD dsname listing.timestamps ctx.mountTime)), st, 0⟩
                      | some inner =>
                          match resolveVersionId ctx dsname version_label with
                          | .error e => ⟨.error e, st, 0⟩
                          | .ok ds_id =>
                              match resolve_path st.cache ds_id inner with
                              | none => ⟨.error (.errno .ENOENT), st, 0⟩
                              | some real =>
                                  match absLookup st.cache real with
                                  | some (.dir _) => ⟨.ok (.dirAttr 0), st, 0⟩
                                  | some (.file sz) => ⟨.ok (.fileAttr sz), st, 0⟩
                                  | none => ⟨.error (.errno .ENOENT), st, 0⟩
                  else
                    match dictGet? dsname listing.folder_lookup with
                    | none => ⟨.error (.errno .ENOENT), st, 0⟩
                    | some ds_id =>
                        match resolve_path st.cache ds_id sub with
                        | none => ⟨.error (.errno .ENOENT), st, 0⟩
                        | some real =>
                            match absLookup st.cache real with
                            | some (.dir _) => ⟨.ok (.dirAttr 0), st, 0⟩
                            | some (.file sz) => ⟨.ok (.fileAttr sz), st, 0⟩
                            | none => ⟨.error (.errno .ENOENT), st, 0⟩

/-- Run `ensure_downloaded` from an operation (`NMRHubFS._download`),
threading the cache state and the download count. -/
def runEnsure (download : Except Unit (List (String × FSNode)))
    (tmpName : String) (now maxBytes : Nat) (st : SysState) (ds_id : Nat) :
    Except EnsureErr (List String) × SysState × Nat :=
  let e := ensure_downloaded download tmpName now maxBytes st.cache ds_id
  (e.res, ⟨e.cache, st.open_fds, st.next_fh⟩, e.dls)

/-- `NMRHubFS.readdir`. -/
def readdirOp (ctx : FSCtx) (download : Except Unit (List (String × FSNode)))
    (tmpName : String) (now maxBytes : Nat)
    (st : SysState) (path : String) : OpOut (List String) :=
  let (category, dataset_name, subpath) := parse_path ctx path
  match category with
  | .root => ⟨.ok ([".", ".."] ++ ctx.availableCats.map displayName), st, 0⟩
  | .sentinel => ⟨.error (.errno .ENOENT), st, 0⟩
  | .known k =>
      if ¬ ctx.availableCats.contains k then ⟨.error (.errno .ENOENT), st, 0⟩
      else
        match dataset_name with
        | none => ⟨.ok ([".", ".."] ++ dictKeys (ctx.listings k).folder_lookup), st, 0⟩
        | some dsname =>
            if k = .builtin .PUBLISHED then
              let listing := ctx.listings k
              if (dictGet? dsname listing.folder_lookup).isNone then
                ⟨.error (.errno .ENOENT), st, 0⟩
              else
                let versions := dictGetD dsname listing.version_map []
                match subpath with
                | none =>
                    ⟨.ok ([".", ".."] ++ List.insertionSort (fun a b => strLe a b = true) (dictKeys versions)), st, 0⟩
                | some sub =>
                    let (version_label, inner_path) := splitFirst sub
                    match resolveVersionId ctx dsname version_label with
                    | .error e => ⟨.error e, st, 0⟩
                    | .ok ds_id =>
                        match runEnsure download tmpName now maxBytes st ds_id with
                        | (.error err, st', d) => ⟨.error (.raised err), st', d⟩
                        | (.ok _, st', d) =>
                            let inner := match inner_path with | some i => i | none => ""
                            ⟨.ok ([".", ".."] ++ list_entries st'.cache ds_id inner), st', d⟩
            else
              match dictGet? dsname (ctx.listings k).folder_lookup with
              | none => ⟨.error (.errno .ENOENT), st, 0⟩
              | some ds_id =>
                  match runEnsure download tmpName now maxBytes st ds_id with
                  | (.error err, st', d) => ⟨.error (.raised err), st', d⟩
                  | (.ok _, st', d) =>
                      let sub := match subpath with | some s => s | none => ""
                      ⟨.ok ([".", ".."] ++ list_entries st'.cache ds_id sub), st', d⟩

/-- `NMRHubFS.open` (named `openFile` because `open` is a Lean keyword).
On success the real file is opened read-only and recorded under a fresh
ascending handle. -/
def openFile (ctx : FSCtx) (download : Except Unit (List (String × FSNode)))
    (tmpName : String) (now maxBytes : Nat)
    (st : SysState) (path : String) : OpOut Nat :=
  let (category, dataset_name, subpath) := parse_path ctx path
  match category, dataset_name, subpath with
  | .root, _, _ => ⟨.error (.errno .EISDIR), st, 0⟩
  | _, none, _ => ⟨.error (.errno .EISDIR), st, 0⟩
  | _, _, none => ⟨.error (.errno .EISDIR), st, 0⟩
  | .sentinel, some _, some _ => ⟨.error (.errno .ENOENT), st, 0⟩
  | .known k, some dsname, some sub =>
      if ¬ ctx.availableCats.contains k then ⟨.error (.errno .ENOENT), st, 0⟩
      else
        let resolved : Except OpErr (Nat × String) :=
          if k = .builtin .PUBLISHED then
            let (version_label, inner_path) := splitFirst sub
            match inner_path with
            | none => .error (.errno .EISDIR)   -- opening a version dir as a file
            | some inner =>
                match resolveVersionId ctx dsname version_label with
                | .error e => .error e
                | .ok ds_id => .ok (ds_id, inner)
          else
            match dictGet? dsname (ctx.listings k).folder_lookup with
            | none => .error (.errno .ENOENT)
            | some ds_id => .ok (ds_id, sub)
        match resolved with
        | .error e => ⟨.error e, st, 0⟩
        | .ok (ds_id, inner) =>
            match runEnsure download tmpName now maxBytes st ds_id with
            | (.error err, st', d) => ⟨.error (.raised err), st', d⟩
            | (.ok _, st', d) =>
                match resolve_path st'.cache ds_id inner with
                | none => ⟨.error (.errno .ENOENT), st', d⟩
                | some real =>
                    match absLookup st'.cache real with
                    | some (.dir _) => ⟨.error (.errno .ENOENT), st', d⟩
                    | _ =>
                        let fh := st'.next_fh
                        ⟨.ok fh, ⟨st'.cache, st'.open_fds ++ [(fh, real)], fh + 1⟩, d⟩

/-! ### The thirteen mutating operations, each `raise FuseOSError(EROFS)` -/

def chmodOp (st : SysState) (_path : String) (_mode : Nat) : Except Errno Unit × SysState :=
  (.error .EROFS, st)

def chownOp (st : SysState) (_path : String) (_uid _gid : Nat) : Except Errno Unit × SysState :=
  (.error .EROFS, st)

def createOp (st : SysState) (_path : String) (_mode : Nat) : Except Errno Unit × SysState :=
  (.error .EROFS, st)

def linkOp (st : SysState) (_target _source : String) : Except Errno Unit × SysState :=
  (.error .EROFS, st)

def mkdirOp (st : SysState) (_path : String) (_mode : Nat) : Except Errno Unit × SysState :=
  (.error .EROFS, st)

def mknodOp (st : SysState) (_path : String) (_mode _dev : Nat) : Except Errno Unit × SysState :=
  (.error .EROFS, st)

def renameOp (st : SysState) (_old _new : String) : Except Errno Unit × SysState :=
  (.error .EROFS, st)

def rmdirOp (st : SysState) (_path : String) : Except Errno Unit × SysState :=
  (.error .EROFS, st)

def symlinkOp (st : SysState) (_target _source : String) : Except Errno Unit × SysState :=
  (.error .EROFS, st)

def truncateOp (st : SysState) (_path : String) (_length : Nat) : Except Errno Unit × SysState :=
  (.error .EROFS, st)

def unlinkOp (st : SysState) (_path : String) : Except Errno Unit × SysState :=
  (.error .EROFS, st)

def utimensOp (st : SysState) (_path : String) (_times : Option (Nat × Nat)) :
    Except Errno Unit × SysState :=
  (.error .EROFS, st)

def writeOp (st : SysState) (_path : String) (_data : List Nat) (_offset : Nat) (_fh : Nat) :
    Except Errno Unit × SysState :=
  (.error .EROFS, st)

/-! ## Claim theorems -/

/-! ### C1 — `resolve_path` containment -/

/-- A concrete cache state for the traversal analysis: dataset `12` is
cached, and a sibling dataset `123` holds a file `secret`. -/
def stC1 : CacheState :=
  ⟨[⟨"12", 1, .dir [("x", .file 1)]⟩, ⟨"123", 2, .dir [("secret", .file 7)]⟩]⟩

/-- C1: the claim that `resolve_path` returns a real path only for subpaths
remaining strictly within the dataset's cache directory FAILS on the code:
the containment test is `str(full).startswith(str(ds_dir))` without a
trailing separator, so for dataset `12` the subpath `"../123/secret"`
canonicalises to `/cacheroot/123/secret`, which passes the string-prefix
test against `/cacheroot/12` and is returned as a real path even though it
lies outside dataset 12's directory. -/
theorem C1_resolve_path_escapes :
    resolve_path stC1 12 "../123/secret" = some ["cacheroot", "123", "secret"] ∧
      ["cacheroot", "123", "secret"].take 2 ≠ datasetDirComps 12 := by
  constructor
  · rfl
  · decide

/-! ### C10 — `cached_size` agrees with `is_cached` -/

/-- The spec-side condition both accessors are claimed to decide: the
directory named by the identifier exists under the cache root and is
non-empty. -/
def specEntryNonemptyDir (st : CacheState) (dataset_id : Nat) : Bool :=
  match lookupEntry st (natToString dataset_id) with
  | some e => match e.node with | .dir cs => !cs.isEmpty | .file _ => false
  | none => false

/-- C10: for every cache state and dataset identifier, `cached_size`
returns a value exactly when `is_cached` returns true, and both hold
exactly when the identifier-named directory exists under the cache root
and is non-empty. -/
theorem C10_cached_size_iff_is_cached (st : CacheState) (dataset_id : Nat) :
    (cached_size st dataset_id).isSome = is_cached st dataset_id ∧
      is_cached st dataset_id = specEntryNonemptyDir st dataset_id := by
  constructor
  · unfold cached_size is_cached
    rcases h : lookupEntry st (natToString dataset_id) with _ | e
    · simp
    · rcases hn : e.node with sz | cs
      · simp [hn]
      · by_cases hc : cs.isEmpty <;> simp [hn, hc]
  · rfl

/-! ### C6 — all mutating operations are rejected read-only, no effects -/

/-- C6: every mutating operation, on every path and argument, returns the
read-only-filesystem error and leaves the whole state (download cache,
open-handle map, handle counter) unchanged; the catalog snapshot is not
even reachable from these operations. -/
theorem C6_mutating_ops_erofs (st : SysState) (p q : String) (m u g dev len off fh : Nat)
    (times : Option (Nat × Nat)) (data : List Nat) :
    chmodOp st p m = (.error .EROFS, st) ∧
    chownOp st p u g = (.error .EROFS, st) ∧
    createOp st p m = (.error .EROFS, st) ∧
    linkOp st p q = (.error .EROFS, st) ∧
    mkdirOp st p m = (.error .EROFS, st) ∧
    mknodOp st p m dev = (.error .EROFS, st) ∧
    renameOp st p q = (.error .EROFS, st) ∧
    rmdirOp st p = (.error .EROFS, st) ∧
    symlinkOp st p q = (.error .EROFS, st) ∧
    truncateOp st p len = (.error .EROFS, st) ∧
    unlinkOp st p = (.error .EROFS, st) ∧
    utimensOp st p times = (.error .EROFS, st) ∧
    writeOp st p data off fh = (.error .EROFS, st) :=
  ⟨rfl, rfl, rfl, rfl, rfl, rfl, rfl, rfl, rfl, rfl, rfl, rfl, rfl⟩

/-! ### C2 — counterexample: cross-group name collision -/

/-- Input on which the claimed bijection fails: dataset 1's base name
coincides with the timestamp-disambiguated name produced for dataset 2
inside the distinct base-name group `"foo"`. -/
def dsCol : List DS :=
  [⟨1, some "foo (2024-06-15 10:30)", none, []⟩,
   ⟨2, some "foo", some "2024-06-15T10:30:00", []⟩,
   ⟨3, some "foo", some "2024-06-16T10:30:00", []⟩]

/-- C2 counterexample: on `dsCol` — three datasets with pairwise-distinct
identifiers — `deduplicate_names` assigns identifiers 1 and 2 the same
display name, so the identifier-to-name mapping is not injective and hence
not a bijection onto its range. -/
theorem C2_counterexample :
    dictGet? 1 (deduplicate_names dsCol) = some "foo (2024-06-15 10:30)" ∧
      dictGet? 2 (deduplicate_names dsCol) = some "foo (2024-06-15 10:30)" ∧
      (1 : Nat) ≠ 2 := by
  refine ⟨by rfl, by rfl, by decide⟩

/-! ### C4 — counterexample: immediate eviction after a successful install -/

/-- C4 counterexample: with an empty cache and a byte budget of `0`, a
successful `ensure_downloaded` of dataset 1 (5 bytes of content) returns
the dataset path, yet the eviction sweep that the call itself triggers
removes the entry again, so neither `is_cached` nor `resolve_path` report
the entry present after the successful call. -/
theorem C4_counterexample :
    (ensure_downloaded (.ok [("a", .file 5)]) ".dl-1-t" 9 0 ⟨[]⟩ 1).res =
        .ok ["cacheroot", "1"] ∧
      is_cached (ensure_downloaded (.ok [("a", .file 5)]) ".dl-1-t" 9 0 ⟨[]⟩ 1).cache 1 = false ∧
      resolve_path (ensure_downloaded (.ok [("a", .file 5)]) ".dl-1-t" 9 0 ⟨[]⟩ 1).cache 1 "" =
        none := by
  refine ⟨by rfl, by rfl, by rfl⟩

/-! ### C9 — counterexample: opening an on-disk directory is `ENOENT` -/

/-- Context for the `open` analysis: the Public category with one dataset
folder `ds` (identifier 7). -/
def ctxC9 : FSCtx :=
  ⟨[.builtin .PUBLIC, .builtin .PUBLISHED],
   fun _ => ⟨[("ds", 7)], [("ds", 42)], []⟩, 100⟩

/-- State for the `open` analysis: dataset 7 is cached and contains a
subdirectory `d`. -/
def stC9 : SysState :=
  ⟨⟨[⟨"7", 1, .dir [("d", .dir [("f", .file 1)]), ("g", .file 2)]⟩]⟩, [], 1⟩

/-- C9 counterexample: `open` on `/Public Datasets/ds/d`, a deeper path
whose resolved real path is an on-disk directory, is rejected with the
not-found error, not the is-a-directory error the claim requires. -/
theorem C9_counterexample :
    (openFile ctxC9 (.error ()) ".dl-7-t" 5 1000 stC9 "/Public Datasets/ds/d").res =
        .error (.errno .ENOENT) ∧
      (openFile ctxC9 (.error ()) ".dl-7-t" 5 1000 stC9 "/Public Datasets/ds/d").res ≠
        .error (.errno .EISDIR) := by
  refine ⟨by rfl, ?_⟩
  intro h
  have h2 : OpErr.errno Errno.ENOENT = OpErr.errno Errno.EISDIR := by
    have h1 :
        (openFile ctxC9 (.error ()) ".dl-7-t" 5 1000 stC9 "/Public Datasets/ds/d").res =
          .error (.errno .ENOENT) := by rfl
    rw [h1] at h
    exact Except.error.inj h
  simp at h2

/-! ### C7 — eviction: oldest-first prefix removal -/

instance : IsTotal CEntry (fun a b => a.mtime ≤ b.mtime) :=
  ⟨fun a b => Nat.le_total a.mtime b.mtime⟩

instance : IsTrans CEntry (fun a b => a.mtime ≤ b.mtime) :=
  ⟨fun _ _ _ => Nat.le_trans⟩

theorem entriesTotal_cons (e : CEntry) (l : List CEntry) :
    entriesTotal (e :: l) = nodeSize e.node + entriesTotal l := by
  simp [entriesTotal]

/-- The eviction loop removes exactly the names of the shortest prefix of
the (oldest-first) candidate order whose removal brings the running total
within budget, or all of them if no prefix suffices. -/
theorem evictNames_take (maxBytes : Nat) :
    ∀ (l : List CEntry) (total : Nat),
      ∃ k, k ≤ l.length ∧
        evictNames maxBytes total l = (l.take k).map (·.name) ∧
        (total - entriesTotal (l.take k) ≤ maxBytes ∨ k = l.length) ∧
        (∀ j < k, maxBytes < total - entriesTotal (l.take j)) := by
  intro l
  induction l with
  | nil =>
      intro total
      exact ⟨0, by simp [evictNames], by simp [evictNames], .inr rfl, by omega⟩
  | cons e rest ih =>
      intro total
      by_cases hle : total ≤ maxBytes
      · refine ⟨0, by simp, ?_, .inl (by simpa [entriesTotal] using hle), by omega⟩
        simp [evictNames, hle]
      · obtain ⟨k', hk'len, hk'eq, hk'stop, hk'min⟩ := ih (total - nodeSize e.node)
        refine ⟨k' + 1, by simpa using hk'len, ?_, ?_, ?_⟩
        · simp only [evictNames, if_neg hle, List.take_succ_cons, List.map_cons]
          rw [hk'eq]
        · rcases hk'stop with h | h
          · left
            simp only [List.take_succ_cons, entriesTotal_cons]
            omega
          · right; simp [h]
        · intro j hj
          match j with
          | 0 => simpa [entriesTotal] using Nat.lt_of_not_le hle
          | j' + 1 =>
              have := hk'min j' (by omega)
              simp only [List.take_succ_cons, entriesTotal_cons]
              omega

/-- The cache states of the claim's concrete example: three cached dataset
directories of sizes 3 GB, 1 GB, 2 GB, with access times oldest→newest in
that order, against a 4 GB budget. -/
def oneGB : Nat := 1024 * 1024 * 1024

def st7 : CacheState :=
  ⟨[⟨"1", 10, .dir [("a", .file (3 * oneGB))]⟩,
    ⟨"2", 20, .dir [("b", .file oneGB)]⟩,
    ⟨"3", 30, .dir [("c", .file (2 * oneGB))]⟩]⟩

/-- C7: eviction.  (i) If the summed size of the identifier-named directory
entries is within the byte budget, the state is unchanged.  (ii) The
oldest-first order used is sorted ascending by last-modified time and is a
permutation of the candidate entries.  (iii) Otherwise the removed names
are exactly the shortest oldest-first prefix whose removal brings the total
within budget (all of them if none suffices), the survivors being the
remaining entries.  (iv) On the concrete 3 GB/1 GB/2 GB example with a 4 GB
budget, exactly the oldest (3 GB) entry is evicted, leaving 3 GB of
usage. -/
theorem C7_eviction (maxBytes : Nat) (st : CacheState) :
    (entriesTotal (st.entries.filter isCandidate) ≤ maxBytes → evict maxBytes st = st) ∧
    List.Pairwise (fun a b => a.mtime ≤ b.mtime) (sortByMtime (st.entries.filter isCandidate)) ∧
    List.Perm (sortByMtime (st.entries.filter isCandidate)) (st.entries.filter isCandidate) ∧
    (maxBytes < entriesTotal (st.entries.filter isCandidate) →
      ∃ k,
        let cands := st.entries.filter isCandidate
        let total := entriesTotal cands
        let sorted := sortByMtime cands
        k ≤ sorted.length ∧
        (evict maxBytes st).entries =
          st.entries.filter
            (fun e => !(((sorted.take k).map (·.name)).contains e.name)) ∧
        (total - entriesTotal (sorted.take k) ≤ maxBytes ∨ k = sorted.length) ∧
        (∀ j < k, maxBytes < total - entriesTotal (sorted.take j))) ∧
    evict (4 * oneGB) st7 =
      ⟨[⟨"2", 20, .dir [("b", .file oneGB)]⟩, ⟨"3", 30, .dir [("c", .file (2 * oneGB))]⟩]⟩ := by
  refine ⟨?_, ?_, ?_, ?_, by rfl⟩
  · intro h
    unfold evict
    simp only [if_pos h]
  · exact List.sorted_insertionSort _ _
  · exact List.perm_insertionSort _ _
  · intro h
    obtain ⟨k, hklen, hkeq, hkstop, hkmin⟩ :=
      evictNames_take maxBytes (sortByMtime (st.entries.filter isCandidate))
        (entriesTotal (st.entries.filter isCandidate))
    refine ⟨k, hklen, ?_, hkstop, hkmin⟩
    unfold evict
    rw [if_neg (by omega)]
    rw [hkeq]

/-- Witness for C7 at the claim's concrete inputs: the 3 GB/1 GB/2 GB state
is over the 4 GB budget, and the single evicted prefix entry is the oldest
one. -/
theorem C7_eviction_witness :
    (4 * oneGB < entriesTotal (st7.entries.filter isCandidate)) ∧
      (entriesTotal (st7.entries.filter isCandidate) ≤ 4 * oneGB →
        evict (4 * oneGB) st7 = st7) ∧
      evict (4 * oneGB) st7 =
        ⟨[⟨"2", 20, .dir [("b", .file oneGB)]⟩, ⟨"3", 30, .dir [("c", .file (2 * oneGB))]⟩]⟩ := by
  refine ⟨by decide, (C7_eviction (4 * oneGB) st7).1, (C7_eviction (4 * oneGB) st7).2.2.2.2⟩

/-! ### C4 — helper lemmas: digits, lookups, eviction survival -/

theorem isDigit_not_ws {c : Char} (h : c.isDigit = true) : isPyWs c = false := by
  rcases Bool.eq_false_or_eq_true (isPyWs c) with ht | hf
  · exfalso
    unfold isPyWs at ht
    simp only [Bool.or_eq_true, decide_eq_true_eq] at ht
    rcases ht with ((((h1 | h1) | h1) | h1) | h1) | h1 <;>
      (subst h1; exact absurd h (by decide))
  · exact hf

theorem dropWhile_ws_of_all_digit :
    ∀ l : List Char, (∀ c ∈ l, c.isDigit = true) → l.dropWhile isPyWs = l
  | [], _ => rfl
  | c :: r, h => by
      simp [List.dropWhile_cons, isDigit_not_ws (h c (by simp))]

theorem stripWsList_digits {l : List Char} (h : ∀ c ∈ l, c.isDigit = true) :
    stripWsList l = l := by
  unfold stripWsList
  rw [dropWhile_ws_of_all_digit l h,
    dropWhile_ws_of_all_digit l.reverse (fun c hc => h c (List.mem_reverse.1 hc)),
    List.reverse_reverse]

theorem digitsRunTail_all : ∀ l : List Char, (∀ c ∈ l, c.isDigit = true) → digitsRunTail l = true
  | [], _ => rfl
  | c :: r, h => by
      have hc : c.isDigit = true := h c (by simp)
      have hne : c ≠ '_' := by intro he; subst he; exact absurd hc (by decide)
      have hstep : digitsRunTail (c :: r) = (c.isDigit && digitsRunTail r) := by
        rw [digitsRunTail.eq_def]
        simp [hne]
      rw [hstep, hc, digitsRunTail_all r (fun x hx => h x (by simp [hx])), Bool.and_self]

theorem natDigits_ne_nil (n : Nat) : natDigits n ≠ [] := by
  rw [natDigits_eq_spec, natDigitsSpec]
  split <;> simp

theorem pyIntParseable_natToString (n : Nat) : pyIntParseable (natToString n) = true := by
  have hd : ∀ c ∈ (natToString n).data, c.isDigit = true := natToString_digits n
  unfold pyIntParseable
  rw [stripWsList_digits hd]
  have hdata : (natToString n).data = natDigits n := by
    simp [natToString, List.asString]
  rw [hdata]
  rcases hn : natDigits n with _ | ⟨c, r⟩
  · exact absurd hn (natDigits_ne_nil n)
  · have hc : c.isDigit = true := by
      apply hd; rw [hdata, hn]; simp
    have hplus : (c = '+' || c = '-') = false := by
      rcases Bool.eq_false_or_eq_true (c = '+' || c = '-') with ht | hf
      · exfalso
        simp only [Bool.or_eq_true, decide_eq_true_eq] at ht
        rcases ht with h1 | h1 <;> (subst h1; exact absurd hc (by decide))
      · exact hf
    show (if (c = '+' || c = '-') = true then digitsRun r else digitsRun (c :: r)) = true
    rw [hplus]
    simp only [Bool.false_eq_true, if_false]
    rw [digitsRun, hc, digitsRunTail_all r
      (fun x hx => by apply hd; rw [hdata, hn]; simp [hx]), Bool.and_self]

theorem find?_name_none {l : List CEntry} {n : String} (h : ∀ e ∈ l, e.name ≠ n) :
    l.find? (fun e => e.name = n) = none := by
  rw [List.find?_eq_none]
  intro x hx
  simp [h x hx]

theorem find?_name_append_last {l : List CEntry} {e : CEntry}
    (h : ∀ x ∈ l, x.name ≠ e.name) :
    (l ++ [e]).find? (fun x => x.name = e.name) = some e := by
  induction l with
  | nil => simp [List.find?]
  | cons a l ih =>
      have ha : (decide (a.name = e.name)) = false := by simp [h a (by simp)]
      simp only [List.cons_append, List.find?, ha]
      exact ih (fun x hx => h x (by simp [hx]))

theorem dictGet?_map_nodes (l : List CEntry) (n : String) :
    dictGet? n (l.map (fun e => (e.name, e.node))) =
      (l.find? (fun e => e.name = n)).map (·.node) := by
  induction l with
  | nil => rfl
  | cons a l ih =>
      by_cases ha : a.name = n
      · simp [dictGet?, List.find?, ha]
      · simp only [List.map_cons, dictGet?, List.find?, if_neg ha]
        rw [ih]
        simp [ha]

theorem contains_false_of_not_mem {l : List String} {n : String} (h : n ∉ l) :
    l.contains n = false := by
  rcases Bool.eq_false_or_eq_true (l.contains n) with ht | hf
  · exact absurd (by simpa using ht) h
  · exact hf

theorem orderedInsert_append_last {α : Type} {r : α → α → Prop} [DecidableRel r]
    (a e : α) (hre : r a e) :
    ∀ l, List.orderedInsert r a (l ++ [e]) = List.orderedInsert r a l ++ [e]
  | [] => by simp [List.orderedInsert, if_pos hre]
  | b :: l => by
      by_cases hb : r a b
      · simp [List.orderedInsert, if_pos hb]
      · simp [List.orderedInsert, if_neg hb, orderedInsert_append_last a e hre l]

theorem insertionSort_append_last {α : Type} {r : α → α → Prop} [DecidableRel r] (e : α) :
    ∀ l, (∀ x ∈ l, r x e) →
      List.insertionSort r (l ++ [e]) = List.insertionSort r l ++ [e]
  | [], _ => by simp [List.insertionSort]
  | a :: l, h => by
      have ih := insertionSort_append_last e l (fun x hx => h x (by simp [hx]))
      show List.orderedInsert r a (List.insertionSort r (l ++ [e])) =
        List.orderedInsert r a (List.insertionSort r l) ++ [e]
      rw [ih]
      exact orderedInsert_append_last a e (h a (by simp)) _

theorem entriesTotal_append (l₁ l₂ : List CEntry) :
    entriesTotal (l₁ ++ l₂) = entriesTotal l₁ + entriesTotal l₂ := by
  simp [entriesTotal]

theorem entriesTotal_perm {l₁ l₂ : List CEntry} (h : l₁.Perm l₂) :
    entriesTotal l₁ = entriesTotal l₂ := by
  unfold entriesTotal
  exact (h.map (fun (e : CEntry) => nodeSize e.node)).sum_eq

/-- Survival of a freshly installed entry: if the entry appended at the end
of the root listing has the newest mtime, a fresh name, and fits the byte
budget on its own, the eviction sweep keeps it. -/
theorem evict_keeps_new_entry (maxBytes : Nat) (base : List CEntry) (e : CEntry)
    (hfresh : ∀ x ∈ base, x.name ≠ e.name)
    (hmt : ∀ x ∈ base, x.mtime ≤ e.mtime)
    (hcand : isCandidate e = true)
    (hsize : nodeSize e.node ≤ maxBytes) :
    lookupEntry (evict maxBytes ⟨base ++ [e]⟩) e.name = some e := by
  have hcands : (base ++ [e]).filter isCandidate = base.filter isCandidate ++ [e] := by
    rw [List.filter_append]
    simp [hcand]
  unfold evict
  by_cases htot : entriesTotal ((⟨base ++ [e]⟩ : CacheState).entries.filter isCandidate) ≤ maxBytes
  · rw [if_pos htot]
    exact find?_name_append_last hfresh
  · rw [if_neg htot]
    have hsorted : sortByMtime ((⟨base ++ [e]⟩ : CacheState).entries.filter isCandidate) =
        sortByMtime (base.filter isCandidate) ++ [e] := by
      show sortByMtime ((base ++ [e]).filter isCandidate) = _
      rw [hcands]
      exact insertionSort_append_last e _
        (fun x hx => hmt x (List.mem_of_mem_filter hx))
    have hpermfront : (sortByMtime (base.filter isCandidate)).Perm (base.filter isCandidate) :=
      List.perm_insertionSort _ _
    have hlenfront : (sortByMtime (base.filter isCandidate)).length =
        (base.filter isCandidate).length := hpermfront.length_eq
    obtain ⟨k, hklen, hkeq, hkstop, hkmin⟩ :=
      evictNames_take maxBytes (sortByMtime ((⟨base ++ [e]⟩ : CacheState).entries.filter isCandidate))
        (entriesTotal ((⟨base ++ [e]⟩ : CacheState).entries.filter isCandidate))
    rw [hkeq]
    have htote : entriesTotal ((⟨base ++ [e]⟩ : CacheState).entries.filter isCandidate) =
        entriesTotal (base.filter isCandidate) + nodeSize e.node := by
      show entriesTotal ((base ++ [e]).filter isCandidate) = _
      rw [hcands, entriesTotal_append]
      simp [entriesTotal]
    -- the prefix never reaches the final entry
    have hkle : k ≤ (sortByMtime (base.filter isCandidate)).length := by
      by_contra hgt
      have hklen' : k = (sortByMtime (base.filter isCandidate)).length + 1 := by
        rw [hsorted] at hklen
        simp at hklen
        omega
      have := hkmin (sortByMtime (base.filter isCandidate)).length (by omega)
      rw [hsorted, List.take_left] at this
      rw [htote, entriesTotal_perm hpermfront] at this
      omega
    have htake : (sortByMtime ((⟨base ++ [e]⟩ : CacheState).entries.filter isCandidate)).take k =
        (sortByMtime (base.filter isCandidate)).take k := by
      rw [hsorted, List.take_append_of_le_length hkle]
    have hnotmem : e.name ∉
        ((sortByMtime ((⟨base ++ [e]⟩ : CacheState).entries.filter isCandidate)).take k).map
          (·.name) := by
      rw [htake]
      intro hmem
      obtain ⟨x, hx, hxn⟩ := List.mem_map.1 hmem
      have hx1 : x ∈ sortByMtime (base.filter isCandidate) := List.mem_of_mem_take hx
      have hx2 : x ∈ base := List.mem_of_mem_filter (hpermfront.subset hx1)
      exact hfresh x hx2 hxn
    have hqe : (!(List.contains
        (((sortByMtime ((⟨base ++ [e]⟩ : CacheState).entries.filter isCandidate)).take k).map
          (·.name)) e.name)) = true := by
      rw [contains_false_of_not_mem hnotmem]
      rfl
    show lookupEntry ⟨(base ++ [e]).filter _⟩ e.name = some e
    rw [List.filter_append]
    have hfe : [e].filter (fun x => !(List.contains
        (((sortByMtime ((⟨base ++ [e]⟩ : CacheState).entries.filter isCandidate)).take k).map
          (·.name)) x.name)) = [e] := by
      simp only [List.filter, hqe]
    rw [hfe]
    exact find?_name_append_last
      (fun x hx => hfresh x (List.mem_of_mem_filter hx))

theorem strHasPre_self (s : String) : strHasPre s s = true := by
  unfold strHasPre
  induction s.data with
  | nil => rfl
  | cons c r ih => simp [List.isPrefixOf, ih]

theorem natToString_ne_dotdot (n : Nat) : natToString n ≠ ".." := by
  intro h
  have hdata : natDigits n = ['.', '.'] := by
    have h2 := congrArg String.data h
    simpa [natToString, List.asString] using h2
  have h3 := natDigits_digits n '.' (by rw [hdata]; simp)
  exact absurd h3 (by decide)

theorem foldl_normAbs_no_dots :
    ∀ (l : List String) (acc : List String), (∀ c ∈ l, c ≠ "..") →
      l.foldl (fun acc c => if c = ".." then acc.dropLast else acc ++ [c]) acc = acc ++ l
  | [], acc, _ => by simp
  | c :: r, acc, h => by
      simp only [List.foldl_cons, if_neg (h c (by simp))]
      rw [foldl_normAbs_no_dots r (acc ++ [c]) (fun x hx => h x (by simp [hx]))]
      simp

theorem normAbs_no_dots {l : List String} (h : ∀ c ∈ l, c ≠ "..") : normAbs l = l := by
  unfold normAbs
  simpa using foldl_normAbs_no_dots l [] h

theorem datasetDirComps_no_dots (id : Nat) : ∀ c ∈ datasetDirComps id, c ≠ ".." := by
  intro c hc
  rcases List.mem_pair.1 hc with h | h
  · subst h; decide
  · subst h; exact natToString_ne_dotdot id

theorem absLookup_dataset (st : CacheState) (id : Nat) :
    absLookup st (datasetDirComps id) = (lookupEntry st (natToString id)).map (·.node) := by
  show (if cacheRootName = cacheRootName then nodeLookup (rootNode st) [natToString id]
    else none) = _
  rw [if_pos rfl]
  have h1 : nodeLookup (rootNode st) [natToString id] =
      dictGet? (natToString id) (st.entries.map (fun e => (e.name, e.node))) := by
    unfold rootNode
    cases hd : dictGet? (natToString id) (st.entries.map (fun e => (e.name, e.node))) with
    | none => simp [nodeLookup, hd]
    | some nd => simp [nodeLookup, hd]
  rw [h1, dictGet?_map_nodes]
  rfl

/-- `resolve_path(id, "")` reports exactly whether the identifier-named root
child exists (of any kind). -/
theorem resolve_path_empty (st : CacheState) (id : Nat) :
    resolve_path st id "" =
      if (lookupEntry st (natToString id)).isSome then some (datasetDirComps id) else none := by
  show (if strHasPre (pathStr (datasetDirComps id)) (pathStr (normAbs (datasetDirComps id)))
      then
        if pathExists st (normAbs (datasetDirComps id)) then some (normAbs (datasetDirComps id))
        else none
      else none) = _
  rw [normAbs_no_dots (datasetDirComps_no_dots id), strHasPre_self]
  simp only [if_true]
  unfold pathExists
  rw [absLookup_dataset]
  cases lookupEntry st (natToString id) <;> simp

theorem removeEntry_append_tmp (st : CacheState) (tmpName : String) (now : Nat) (t : FSNode)
    (hfresh : ∀ x ∈ st.entries, x.name ≠ tmpName) :
    removeEntry ⟨st.entries ++ [(⟨tmpName, now, t⟩ : CEntry)]⟩ tmpName = st := by
  unfold removeEntry
  have hx : (st.entries ++ [(⟨tmpName, now, t⟩ : CEntry)]).filter
      (fun e => e.name ≠ tmpName) = st.entries := by
    rw [List.filter_append]
    have h1 : st.entries.filter (fun e => e.name ≠ tmpName) = st.entries :=
      List.filter_eq_self.2 (fun x hx => by simp [hfresh x hx])
    have h2 : ([(⟨tmpName, now, t⟩ : CEntry)]).filter (fun e => e.name ≠ tmpName) = [] := by
      simp [List.filter]
    rw [h1, h2, List.append_nil]
  rw [hx]

theorem ensureDownload_failure (st : CacheState) (id : Nat)
    (download : Except Unit (List (String × FSNode))) (tmpName : String) (now maxBytes : Nat)
    (hfresh : ∀ x ∈ st.entries, x.name ≠ tmpName)
    (hfail : download = .error () ∨ ∃ c, download = .ok c ∧ unwrap c = .error ()) :
    ∃ err, ensureDownload download tmpName now maxBytes st id = ⟨.error err, st, 1⟩ ∧
      (err = .downloadFailed ∨ err = .unwrapFailed) := by
  rcases hfail with hdl | ⟨c, hdl, huw⟩
  · subst hdl
    refine ⟨.downloadFailed, ?_, .inl rfl⟩
    show (⟨.error .downloadFailed,
      removeEntry ⟨st.entries ++ [(⟨tmpName, now, FSNode.dir []⟩ : CEntry)]⟩ tmpName, 1⟩ :
        EnsureOut) = ⟨.error .downloadFailed, st, 1⟩
    rw [removeEntry_append_tmp st tmpName now (FSNode.dir []) hfresh]
  · subst hdl
    refine ⟨.unwrapFailed, ?_, .inr rfl⟩
    show (match unwrap c with
      | .error _ =>
          (⟨.error .unwrapFailed,
            removeEntry ⟨st.entries ++ [(⟨tmpName, now, FSNode.dir c⟩ : CEntry)]⟩ tmpName, 1⟩ :
              EnsureOut)
      | .ok content' =>
          ⟨.ok (datasetDirComps id),
            evict maxBytes ⟨st.entries ++ [(⟨natToString id, now, FSNode.dir content'⟩ : CEntry)]⟩,
            1⟩) = ⟨.error .unwrapFailed, st, 1⟩
    rw [huw, removeEntry_append_tmp st tmpName now (FSNode.dir c) hfresh]

theorem find?_touch (n : String) (now : Nat) :
    ∀ l : List CEntry,
      (l.map (fun e => if e.name = n then ⟨e.name, now, e.node⟩ else e)).find?
          (fun e => e.name = n) =
        (l.find? (fun e => e.name = n)).map (fun e => (⟨e.name, now, e.node⟩ : CEntry))
  | [] => rfl
  | a :: l => by
      by_cases ha : a.name = n
      · simp [List.find?, ha]
      · have hd : (decide (a.name = n)) = false := by simp [ha]
        simp only [List.map_cons, if_neg ha, List.find?, hd]
        exact find?_touch n now l

theorem names_ne_of_lookup_none {st : CacheState} {n : String}
    (h : lookupEntry st n = none) : ∀ x ∈ st.entries, x.name ≠ n := by
  intro x hx
  have h2 := List.find?_eq_none.1 h x hx
  simpa using h2

/-- Reduce `ensure_downloaded` to the download-install sequence over the
state with any stale identifier-named entry removed, whenever the entry is
absent or an empty (stale) directory. -/
theorem ensure_downloaded_not_cached (download : Except Unit (List (String × FSNode)))
    (tmpName : String) (now maxBytes : Nat) (st : CacheState) (id : Nat)
    (hentry : lookupEntry st (natToString id) = none ∨
      ∃ e, lookupEntry st (natToString id) = some e ∧ e.node = .dir []) :
    ensure_downloaded download tmpName now maxBytes st id =
      ensureDownload download tmpName now maxBytes
        ⟨st.entries.filter (fun x => x.name ≠ natToString id)⟩ id := by
  rcases hentry with hlkn | ⟨e, hlk, hnode⟩
  · unfold ensure_downloaded
    simp only [hlkn]
    have hself : st.entries.filter (fun x => x.name ≠ natToString id) = st.entries :=
      List.filter_eq_self.2 (fun x hx => by simp [names_ne_of_lookup_none hlkn x hx])
    rw [hself]
  · rcases e with ⟨nm, mt, nd⟩
    simp only at hnode
    subst hnode
    unfold ensure_downloaded
    simp only [hlk, List.isEmpty_nil, if_true]
    rfl

theorem ensureDownload_success (st : CacheState) (id : Nat)
    (c c' : List (String × FSNode)) (tmpName : String) (now maxBytes : Nat)
    (hdsfresh : ∀ x ∈ st.entries, x.name ≠ natToString id)
    (hmt : ∀ x ∈ st.entries, x.mtime ≤ now)
    (huw : unwrap c = .ok c')
    (hne : c'.isEmpty = false)
    (hsize : sizeChildren c' ≤ maxBytes) :
    (ensureDownload (.ok c) tmpName now maxBytes st id).res = .ok (datasetDirComps id) ∧
      is_cached (ensureDownload (.ok c) tmpName now maxBytes st id).cache id = true ∧
      resolve_path (ensureDownload (.ok c) tmpName now maxBytes st id).cache id "" =
        some (datasetDirComps id) := by
  have hred : ensureDownload (.ok c) tmpName now maxBytes st id =
      ⟨.ok (datasetDirComps id),
        evict maxBytes ⟨st.entries ++ [(⟨natToString id, now, FSNode.dir c'⟩ : CEntry)]⟩, 1⟩ := by
    show (match unwrap c with
      | .error _ =>
          (⟨.error .unwrapFailed,
            removeEntry ⟨st.entries ++ [(⟨tmpName, now, FSNode.dir c⟩ : CEntry)]⟩ tmpName, 1⟩ :
              EnsureOut)
      | .ok content' =>
          ⟨.ok (datasetDirComps id),
            evict maxBytes ⟨st.entries ++ [(⟨natToString id, now, FSNode.dir content'⟩ : CEntry)]⟩,
            1⟩) = _
    rw [huw]
  have hcand : isCandidate (⟨natToString id, now, FSNode.dir c'⟩ : CEntry) = true := by
    unfold isCandidate
    simp [pyIntParseable_natToString]
  have hkeep :
      lookupEntry
          (evict maxBytes ⟨st.entries ++ [(⟨natToString id, now, FSNode.dir c'⟩ : CEntry)]⟩)
          (natToString id) =
        some (⟨natToString id, now, FSNode.dir c'⟩ : CEntry) :=
    evict_keeps_new_entry maxBytes st.entries (⟨natToString id, now, FSNode.dir c'⟩ : CEntry)
      hdsfresh hmt hcand (by simpa [nodeSize] using hsize)
  rw [hred]
  refine ⟨rfl, ?_, ?_⟩
  · unfold is_cached
    rw [hkeep]
    simp [hne]
  · rw [resolve_path_empty, hkeep]
    rfl

theorem ensure_downloaded_hit (download : Except Unit (List (String × FSNode)))
    (tmpName : String) (now maxBytes : Nat) (st : CacheState) (id : Nat)
    {e : CEntry} {cs : List (String × FSNode)}
    (hlk : lookupEntry st (natToString id) = some e) (hnode : e.node = .dir cs)
    (hcs : cs.isEmpty = false) :
    ensure_downloaded download tmpName now maxBytes st id =
      ⟨.ok (datasetDirComps id), touchEntry st (natToString id) now, 0⟩ := by
  rcases e with ⟨nm, mt, nd⟩
  simp only at hnode
  subst hnode
  unfold ensure_downloaded
  simp only [hlk, hcs, Bool.false_eq_true, if_false]

theorem touch_keeps_entry (st : CacheState) (n : String) (now : Nat) {e : CEntry}
    (hlk : lookupEntry st n = some e) :
    lookupEntry (touchEntry st n now) n = some ⟨e.name, now, e.node⟩ := by
  unfold lookupEntry touchEntry
  show (st.entries.map (fun x => if x.name = n then ⟨x.name, now, x.node⟩ else x)).find?
    (fun x => x.name = n) = _
  rw [find?_touch]
  rw [show st.entries.find? (fun x => x.name = n) = some e from hlk]
  rfl

/-- C4 (amended): (i) if the external download or the unwrap transformation
raises during `ensure_downloaded`, after the failure propagates there is no
visible cache entry for the identifier — the root holds exactly the old
entries minus any identifier-named one, `is_cached` is false,
`resolve_path(id, "")` is absent, and neither an identifier-named nor the
temporary staging directory remains; (ii) after a successful
`ensure_downloaded` whose unwrapped content is non-empty and fits the byte
budget (with the fresh entry carrying the newest mtime), both `is_cached`
and `resolve_path(id, "")` report the entry present; (iii) likewise after a
successful call that hits an existing cache entry. -/
theorem C4_failure_no_residue_success_present :
    (∀ (st : CacheState) (id : Nat) (download : Except Unit (List (String × FSNode)))
        (tmpName : String) (now maxBytes : Nat),
      (∀ x ∈ st.entries, x.name ≠ tmpName) →
      (lookupEntry st (natToString id) = none ∨
        ∃ e, lookupEntry st (natToString id) = some e ∧ e.node = .dir []) →
      (download = .error () ∨ ∃ c, download = .ok c ∧ unwrap c = .error ()) →
      ∃ err,
        (ensure_downloaded download tmpName now maxBytes st id).res = .error err ∧
        (err = .downloadFailed ∨ err = .unwrapFailed) ∧
        (ensure_downloaded download tmpName now maxBytes st id).cache.entries =
          st.entries.filter (fun x => x.name ≠ natToString id) ∧
        is_cached (ensure_downloaded download tmpName now maxBytes st id).cache id = false ∧
        resolve_path (ensure_downloaded download tmpName now maxBytes st id).cache id "" = none ∧
        lookupEntry (ensure_downloaded download tmpName now maxBytes st id).cache
          (natToString id) = none ∧
        lookupEntry (ensure_downloaded download tmpName now maxBytes st id).cache tmpName =
          none) ∧
    (∀ (st : CacheState) (id : Nat) (c c' : List (String × FSNode)) (tmpName : String)
        (now maxBytes : Nat),
      (lookupEntry st (natToString id) = none ∨
        ∃ e, lookupEntry st (natToString id) = some e ∧ e.node = .dir []) →
      unwrap c = .ok c' → c'.isEmpty = false → sizeChildren c' ≤ maxBytes →
      (∀ x ∈ st.entries, x.mtime ≤ now) →
      (ensure_downloaded (.ok c) tmpName now maxBytes st id).res = .ok (datasetDirComps id) ∧
        is_cached (ensure_downloaded (.ok c) tmpName now maxBytes st id).cache id = true ∧
        resolve_path (ensure_downloaded (.ok c) tmpName now maxBytes st id).cache id "" =
          some (datasetDirComps id)) ∧
    (∀ (st : CacheState) (id : Nat) (download : Except Unit (List (String × FSNode)))
        (tmpName : String) (now maxBytes : Nat) (e : CEntry) (cs : List (String × FSNode)),
      lookupEntry st (natToString id) = some e → e.node = .dir cs → cs.isEmpty = false →
      (ensure_downloaded download tmpName now maxBytes st id).res = .ok (datasetDirComps id) ∧
        is_cached (ensure_downloaded download tmpName now maxBytes st id).cache id = true ∧
        resolve_path (ensure_downloaded download tmpName now maxBytes st id).cache id "" =
          some (datasetDirComps id) ∧
        (ensure_downloaded download tmpName now maxBytes st id).dls = 0) := by
  refine ⟨?_, ?_, ?_⟩
  · intro st id download tmpName now maxBytes hfresh hentry hfail
    have hfresh' : ∀ x ∈ (⟨st.entries.filter (fun x => x.name ≠ natToString id)⟩ :
        CacheState).entries, x.name ≠ tmpName :=
      fun x hx => hfresh x (List.mem_filter.1 hx).1
    obtain ⟨err, heq, hor⟩ :=
      ensureDownload_failure ⟨st.entries.filter (fun x => x.name ≠ natToString id)⟩ id
        download tmpName now maxBytes hfresh' hfail
    have hmain : ensure_downloaded download tmpName now maxBytes st id =
        ⟨.error err, ⟨st.entries.filter (fun x => x.name ≠ natToString id)⟩, 1⟩ := by
      rw [ensure_downloaded_not_cached download tmpName now maxBytes st id hentry, heq]
    have hlknone : lookupEntry
        (⟨st.entries.filter (fun x => x.name ≠ natToString id)⟩ : CacheState)
        (natToString id) = none :=
      find?_name_none (fun x hx => by
        have h2 := (List.mem_filter.1 hx).2
        simpa using h2)
    refine ⟨err, ?_, hor, ?_, ?_, ?_, ?_, ?_⟩
    · rw [hmain]
    · rw [hmain]
    · rw [hmain]
      unfold is_cached
      rw [hlknone]
    · rw [hmain, resolve_path_empty, hlknone]
      rfl
    · rw [hmain]
      exact hlknone
    · rw [hmain]
      exact find?_name_none hfresh'
  · intro st id c c' tmpName now maxBytes hentry huw hne hsize hmt
    have hdsfresh : ∀ x ∈ (⟨st.entries.filter (fun x => x.name ≠ natToString id)⟩ :
        CacheState).entries, x.name ≠ natToString id :=
      fun x hx => by
        have h2 := (List.mem_filter.1 hx).2
        simpa using h2
    have hmt' : ∀ x ∈ (⟨st.entries.filter (fun x => x.name ≠ natToString id)⟩ :
        CacheState).entries, x.mtime ≤ now :=
      fun x hx => hmt x (List.mem_filter.1 hx).1
    have h1 := ensureDownload_success
      ⟨st.entries.filter (fun x => x.name ≠ natToString id)⟩ id c c' tmpName now maxBytes
      hdsfresh hmt' huw hne hsize
    rw [ensure_downloaded_not_cached (.ok c) tmpName now maxBytes st id hentry]
    exact h1
  · intro st id download tmpName now maxBytes e cs hlk hnode hcs
    have hmain := ensure_downloaded_hit download tmpName now maxBytes st id hlk hnode hcs
    have hlk2 := touch_keeps_entry st (natToString id) now hlk
    rw [hmain]
    refine ⟨rfl, ?_, ?_, rfl⟩
    · unfold is_cached
      rw [hlk2, hnode]
      simp [hcs]
    · rw [resolve_path_empty, hlk2]
      rfl

/-- Witness for C4 at concrete inputs: a failing download into an empty
cache leaves no trace, and a successful 3-byte download within a 100-byte
budget is visible through both accessors. -/
theorem C4_witness :
    ((ensure_downloaded (.error ()) ".dl-5-t" 9 100 ⟨[]⟩ 5).cache.entries = [] ∧
      is_cached (ensure_downloaded (.error ()) ".dl-5-t" 9 100 ⟨[]⟩ 5).cache 5 = false ∧
      resolve_path (ensure_downloaded (.error ()) ".dl-5-t" 9 100 ⟨[]⟩ 5).cache 5 "" = none) ∧
    ((ensure_downloaded (.ok [("a", .file 3)]) ".dl-5-t" 9 100 ⟨[]⟩ 5).res =
        .ok (datasetDirComps 5) ∧
      is_cached (ensure_downloaded (.ok [("a", .file 3)]) ".dl-5-t" 9 100 ⟨[]⟩ 5).cache 5 =
        true) := by
  constructor
  · obtain ⟨err, hres, hor, hentries, hic, hrp, hlkid, hlktmp⟩ :=
      C4_failure_no_residue_success_present.1 ⟨[]⟩ 5 (.error ()) ".dl-5-t" 9 100
        (by intro x hx; simp at hx) (.inl rfl) (.inl rfl)
    exact ⟨by simpa using hentries, hic, hrp⟩
  · obtain ⟨hres, hic, hrp⟩ :=
      C4_failure_no_residue_success_present.2.1 ⟨[]⟩ 5 [("a", .file 3)] [("a", .file 3)]
        ".dl-5-t" 9 100 (.inl rfl) (by rfl) (by rfl) (by decide)
        (by intro x hx; simp at hx)
    exact ⟨hres, hic⟩

/-! ### C2 — helper lemmas: grouping, concatenated dictionaries, names -/

theorem mem_of_dictGet? {κ α : Type} [DecidableEq κ] {k : κ} {v : α} :
    ∀ {m : List (κ × α)}, dictGet? k m = some v → (k, v) ∈ m := by
  intro m
  induction m with
  | nil => intro h; simp [dictGet?] at h
  | cons p r ih =>
      intro h
      rw [dictGet?] at h
      by_cases hp : p.1 = k
      · rw [if_pos hp] at h
        injection h with h2
        have hpv : p = (k, v) := by
          rcases p with ⟨a, b⟩
          simp only at hp h2
          rw [hp, h2]
        exact hpv ▸ List.mem_cons_self _ _
      · rw [if_neg hp] at h
        exact List.mem_cons_of_mem p (ih h)

theorem dictGet?_isSome_of_mem_keys {κ α : Type} [DecidableEq κ] {k : κ} :
    ∀ {m : List (κ × α)}, k ∈ m.map (·.1) → (dictGet? k m).isSome = true := by
  intro m
  induction m with
  | nil => intro h; simp at h
  | cons p r ih =>
      intro h
      rw [dictGet?]
      by_cases hp : p.1 = k
      · rw [if_pos hp]; rfl
      · rw [if_neg hp]
        apply ih
        rcases List.mem_map.1 h with ⟨q, hq, hqk⟩
        rcases List.mem_cons.1 hq with hq1 | hq1
        · exact absurd (hq1 ▸ hqk) hp
        · exact List.mem_map.2 ⟨q, hq1, hqk⟩

/-- Unique binding under distinct keys. -/
theorem value_eq_of_mem_nodup {κ α : Type} {k : κ} {v₁ v₂ : α} :
    ∀ {m : List (κ × α)}, (m.map (·.1)).Nodup → (k, v₁) ∈ m → (k, v₂) ∈ m → v₁ = v₂ := by
  intro m
  induction m with
  | nil => intro _ h; simp at h
  | cons p r ih =>
      intro hnd h₁ h₂
      rw [List.map_cons, List.nodup_cons] at hnd
      rcases List.mem_cons.1 h₁ with he₁ | he₁ <;> rcases List.mem_cons.1 h₂ with he₂ | he₂
      · rw [← he₂] at he₁
        exact congrArg Prod.snd he₁
      · exfalso
        have hk : k = p.1 := congrArg Prod.fst he₁
        exact hnd.1 (hk ▸ List.mem_map.2 ⟨(k, v₂), he₂, rfl⟩)
      · exfalso
        have hk : k = p.1 := congrArg Prod.fst he₂
        exact hnd.1 (hk ▸ List.mem_map.2 ⟨(k, v₁), he₁, rfl⟩)
      · exact ih hnd.2 he₁ he₂

/-! Invariants of the `setdefault`-append grouping fold. -/

theorem dictPush_keys {α : Type} (k : String) (v : α) :
    ∀ m : List (String × List α),
      (dictPush k v m).map (·.1) =
        if k ∈ m.map (·.1) then m.map (·.1) else m.map (·.1) ++ [k]
  | [] => by simp [dictPush]
  | p :: r => by
      by_cases hp : p.1 = k
      · simp [dictPush, hp]
      · have hkp : ¬ k = p.1 := fun h => hp h.symm
        by_cases hk : k ∈ r.map (·.1) <;>
          simp [dictPush, hp, dictPush_keys k v r, hk, List.mem_cons, hkp]

theorem dictPush_keys_nodup {α : Type} {k : String} {v : α} {m : List (String × List α)}
    (h : (m.map (·.1)).Nodup) : ((dictPush k v m).map (·.1)).Nodup := by
  rw [dictPush_keys]
  by_cases hk : k ∈ m.map (·.1)
  · rw [if_pos hk]; exact h
  · rw [if_neg hk]
    simp [List.nodup_append, h, hk]

/-- Where an element of `dictPush k v m` comes from. -/
theorem dictPush_mem_cases {α : Type} {k : String} {v : α} {p : String × List α} :
    ∀ {m : List (String × List α)}, p ∈ dictPush k v m →
      p ∈ m ∨ (p = (k, [v]) ∧ k ∉ m.map (·.1)) ∨ ∃ g, (k, g) ∈ m ∧ p = (k, g ++ [v]) := by
  intro m
  induction m with
  | nil =>
      intro hp
      simp only [dictPush, List.mem_singleton] at hp
      exact .inr (.inl ⟨hp, by simp⟩)
  | cons q r ih =>
      intro hp
      rw [dictPush] at hp
      by_cases hq : q.1 = k
      · rw [if_pos hq] at hp
        rcases List.mem_cons.1 hp with he | he
        · refine .inr (.inr ⟨q.2, ?_, ?_⟩)
          · rw [← hq]
            exact List.mem_cons_self _ _
          · rw [he, hq]
        · exact .inl (List.mem_cons_of_mem q he)
      · rw [if_neg hq] at hp
        rcases List.mem_cons.1 hp with he | he
        · exact .inl (he ▸ List.mem_cons_self _ _)
        · rcases ih he with hc | ⟨hc, hk⟩ | ⟨g, hg, hc⟩
          · exact .inl (List.mem_cons_of_mem q hc)
          · refine .inr (.inl ⟨hc, ?_⟩)
            simp only [List.map_cons, List.mem_cons]
            rintro (h1 | h1)
            · exact hq h1.symm
            · exact hk h1
          · exact .inr (.inr ⟨g, List.mem_cons_of_mem q hg, hc⟩)

/-- Well-formedness of a grouping accumulator for a key function `key`:
distinct keys, every member keyed correctly, groups non-empty. -/
def GroupWF {α : Type} (key : α → String) (m : List (String × List α)) : Prop :=
  (m.map (·.1)).Nodup ∧ (∀ p ∈ m, ∀ d ∈ p.2, key d = p.1) ∧ ∀ p ∈ m, p.2 ≠ []

theorem dictPush_wf {α : Type} {key : α → String} {m : List (String × List α)} {a : α}
    (h : GroupWF key m) : GroupWF key (dictPush (key a) a m) := by
  obtain ⟨h1, h2, h3⟩ := h
  refine ⟨dictPush_keys_nodup h1, ?_, ?_⟩
  · intro p hp d hd
    rcases dictPush_mem_cases hp with hc | ⟨hc, _⟩ | ⟨g, hg, hc⟩
    · exact h2 p hc d hd
    · subst hc
      simp only [List.mem_singleton] at hd
      subst hd; rfl
    · subst hc
      simp only at hd
      rcases List.mem_append.1 hd with hd1 | hd1
      · exact h2 (key a, g) hg d hd1
      · simp only [List.mem_singleton] at hd1
        subst hd1; rfl
  · intro p hp
    rcases dictPush_mem_cases hp with hc | ⟨hc, _⟩ | ⟨g, hg, hc⟩
    · exact h3 p hc
    · subst hc; simp
    · subst hc; simp

theorem groupFold_wf {α : Type} (key : α → String) :
    ∀ (l : List α) (acc : List (String × List α)), GroupWF key acc →
      GroupWF key (l.foldl (fun acc a => dictPush (key a) a acc) acc)
  | [], _, h => h
  | _ :: l, _, h => groupFold_wf key l _ (dictPush_wf h)

theorem nameGroups_wf (l : List DS) : GroupWF baseName (nameGroups l) :=
  groupFold_wf baseName l [] ⟨List.nodup_nil, by simp, by simp⟩

theorem tsGroups_wf (name : String) (g : List DS) :
    GroupWF (displayOf name) (tsGroups name g) :=
  groupFold_wf (displayOf name) g [] ⟨List.nodup_nil, by simp, by simp⟩

/-- Persistence: a member of a bound group survives further pushes. -/
theorem dictPush_persist {α : Type} {k : String} {g : List α} {d : α} {k' : String} {v : α} :
    ∀ {m : List (String × List α)}, (k, g) ∈ m → d ∈ g →
      ∃ g', (k, g') ∈ dictPush k' v m ∧ d ∈ g' := by
  intro m
  induction m with
  | nil => intro h; simp at h
  | cons q r ih =>
      intro hm hd
      rw [dictPush]
      by_cases hq : q.1 = k'
      · rcases List.mem_cons.1 hm with he | he
        · refine ⟨q.2 ++ [v], ?_, ?_⟩
          · rw [if_pos hq]
            have hk : k = q.1 := congrArg Prod.fst he
            rw [hk]
            exact List.mem_cons_self _ _
          · have hg : g = q.2 := congrArg Prod.snd he
            exact List.mem_append_left _ (hg ▸ hd)
        · exact ⟨g, by rw [if_pos hq]; exact List.mem_cons_of_mem _ he, hd⟩
      · rcases List.mem_cons.1 hm with he | he
        · exact ⟨g, by rw [if_neg hq]; exact he ▸ List.mem_cons_self _ _, hd⟩
        · obtain ⟨g', hg', hd'⟩ := ih he hd
          exact ⟨g', by rw [if_neg hq]; exact List.mem_cons_of_mem _ hg', hd'⟩

/-- Persistence of group membership through a whole grouping fold. -/
theorem groupFold_persist {α : Type} (key : α → String) :
    ∀ (l : List α) (acc : List (String × List α)) (k : String) (g : List α) (d : α),
      (k, g) ∈ acc → d ∈ g →
      ∃ g', (k, g') ∈ l.foldl (fun acc a => dictPush (key a) a acc) acc ∧ d ∈ g'
  | [], _, _, g, _, hg, hd => ⟨g, hg, hd⟩
  | b :: l, acc, k, g, d, hg, hd => by
      obtain ⟨g', hg', hd'⟩ := @dictPush_persist _ _ _ _ (key b) b _ hg hd
      exact groupFold_persist key l _ k g' d hg' hd'

/-- Presence: every processed element ends in its key's group. -/
theorem groupFold_mem {α : Type} (key : α → String) :
    ∀ (l : List α) (acc : List (String × List α)) (d : α), d ∈ l →
      ∃ g, (key d, g) ∈ l.foldl (fun acc a => dictPush (key a) a acc) acc ∧ d ∈ g := by
  intro l
  induction l with
  | nil => intro acc d h; simp at h
  | cons a r ih =>
      intro acc d h
      rcases List.mem_cons.1 h with he | he
      · subst he
        -- after pushing d, it is in its group; persistence through the rest
        have hstart : ∃ g, (key d, g) ∈ dictPush (key d) d acc ∧ d ∈ g := by
          induction acc with
          | nil => exact ⟨[d], by simp [dictPush], by simp⟩
          | cons q racc ihacc =>
              rw [dictPush]
              by_cases hq : q.1 = key d
              · exact ⟨q.2 ++ [d], by rw [if_pos hq, ← hq]; exact List.mem_cons_self _ _,
                  List.mem_append_right _ (by simp)⟩
              · obtain ⟨g, hg, hd⟩ := ihacc
                exact ⟨g, by rw [if_neg hq]; exact List.mem_cons_of_mem _ hg, hd⟩
        obtain ⟨g, hg, hd⟩ := hstart
        exact groupFold_persist key r _ (key d) g d hg hd
      · exact ih _ d he

/-! Permutation facts: groups partition the input; assignments carry the
input identifiers. -/

theorem dictPush_flatMap_perm {α : Type} (k : String) (v : α) :
    ∀ m : List (String × List α),
      ((dictPush k v m).flatMap (·.2)).Perm (m.flatMap (·.2) ++ [v])
  | [] => by simp [dictPush]
  | p :: r => by
      by_cases hp : p.1 = k
      · simp only [dictPush, if_pos hp, List.flatMap_cons]
        rw [List.append_assoc, List.append_assoc]
        exact List.Perm.append_left _ List.perm_append_comm
      · simp only [dictPush, if_neg hp, List.flatMap_cons]
        rw [List.append_assoc]
        exact List.Perm.append_left _ (dictPush_flatMap_perm k v r)

theorem groupFold_flatMap_perm {α : Type} (key : α → String) :
    ∀ (l : List α) (acc : List (String × List α)),
      ((l.foldl (fun acc a => dictPush (key a) a acc) acc).flatMap (·.2)).Perm
        (acc.flatMap (·.2) ++ l)
  | [], acc => by simp
  | a :: l, acc => by
      have h1 := groupFold_flatMap_perm key l (dictPush (key a) a acc)
      have h2 := (dictPush_flatMap_perm (key a) a acc).append_right l
      refine (h1.trans h2).trans ?_
      rw [List.append_assoc]
      exact List.Perm.refl _

theorem nameGroups_members_perm (l : List DS) :
    ((nameGroups l).flatMap (·.2)).Perm l := by
  have h := groupFold_flatMap_perm baseName l []
  simpa using h

theorem tsGroups_members_perm (b : String) (g : List DS) :
    ((tsGroups b g).flatMap (·.2)).Perm g := by
  have h := groupFold_flatMap_perm (displayOf b) g []
  simpa using h

theorem assignSub_ids (disp : String) :
    ∀ sub : List DS, (assignSub disp sub).map (·.1) = sub.map (·.id)
  | [] => rfl
  | [_] => rfl
  | d₁ :: d₂ :: rest => by
      show ((d₁ :: d₂ :: rest).map
        (fun d => (d.id, disp ++ " [" ++ natToString d.id ++ "]"))).map (·.1) = _
      rw [List.map_map]
      rfl

theorem flatMap_perm_congr {α β : Type} {f g : α → List β} :
    ∀ {l : List α}, (∀ a ∈ l, (f a).Perm (g a)) → (l.flatMap f).Perm (l.flatMap g) := by
  intro l
  induction l with
  | nil => intro _; simp
  | cons a r ih =>
      intro h
      simp only [List.flatMap_cons]
      exact (h a (by simp)).append (ih (fun x hx => h x (by simp [hx])))

theorem assignGroup_ids_perm (b : String) :
    ∀ g : List DS, ((assignGroup b g).map (·.1)).Perm (g.map (·.id))
  | [] => by simp [assignGroup, tsGroups]
  | [d] => List.Perm.refl _
  | d₁ :: d₂ :: rest => by
      show (((tsGroups b (d₁ :: d₂ :: rest)).flatMap
        (fun p => assignSub p.1 p.2)).map (·.1)).Perm _
      rw [List.map_flatMap]
      simp only [assignSub_ids]
      rw [← List.map_flatMap]
      exact (tsGroups_members_perm b (d₁ :: d₂ :: rest)).map (·.id)

/-- The identifiers assigned by all groups are a permutation of the input
identifiers. -/
theorem joined_ids_perm (l : List DS) :
    (((nameGroups l).flatMap (fun p => assignGroup p.1 p.2)).map (·.1)).Perm
      (l.map (·.id)) := by
  rw [List.map_flatMap]
  have h1 : ((nameGroups l).flatMap fun p => (assignGroup p.1 p.2).map (·.1)).Perm
      ((nameGroups l).flatMap fun p => p.2.map (·.id)) :=
    flatMap_perm_congr (fun p _ => assignGroup_ids_perm p.1 p.2)
  refine h1.trans ?_
  rw [← List.map_flatMap]
  exact (nameGroups_members_perm l).map (·.id)

theorem dictInsert_fresh {κ α : Type} [DecidableEq κ] {k : κ} {v : α} :
    ∀ {m : List (κ × α)}, k ∉ m.map (·.1) → dictInsert k v m = m ++ [(k, v)] := by
  intro m
  induction m with
  | nil => intro _; rfl
  | cons p r ih =>
      intro h
      rw [dictInsert, if_neg (fun he => h (by simp [he]))]
      rw [ih (fun he => h (by simp [he]))]
      rfl

theorem foldl_dictInsert_append {κ α : Type} [DecidableEq κ] :
    ∀ (ps : List (κ × α)) (res : List (κ × α)),
      (∀ p ∈ ps, p.1 ∉ res.map (·.1)) → (ps.map (·.1)).Nodup →
      ps.foldl (fun r q => dictInsert q.1 q.2 r) res = res ++ ps
  | [], res, _, _ => by simp
  | p :: ps, res, hdisj, hnd => by
      rw [List.map_cons, List.nodup_cons] at hnd
      rw [List.foldl_cons, dictInsert_fresh (hdisj p (by simp))]
      have hdisj' : ∀ q ∈ ps, q.1 ∉ (res ++ [(p.1, p.2)]).map (·.1) := by
        intro q hq
        simp only [List.map_append, List.mem_append]
        rintro (h | h)
        · exact hdisj q (by simp [hq]) h
        · simp only [List.map_cons, List.map_nil, List.mem_singleton] at h
          exact hnd.1 (h ▸ List.mem_map.2 ⟨q, hq, rfl⟩)
      rw [foldl_dictInsert_append ps (res ++ [(p.1, p.2)]) hdisj' hnd.2, List.append_assoc]
      rfl

/-- With globally distinct assigned identifiers, building the `result`
dictionary is plain concatenation of the per-group assignments. -/
theorem deduplicate_eq_join (l : List DS)
    (hnd : (((nameGroups l).flatMap (fun p => assignGroup p.1 p.2)).map (·.1)).Nodup) :
    deduplicate_names l = (nameGroups l).flatMap (fun p => assignGroup p.1 p.2) := by
  suffices h : ∀ (gs : List (String × List DS)) (res : List (Nat × String)),
      ((res ++ gs.flatMap (fun p => assignGroup p.1 p.2)).map (·.1)).Nodup →
      gs.foldl
          (fun res p => (assignGroup p.1 p.2).foldl (fun r q => dictInsert q.1 q.2 r) res)
          res =
        res ++ gs.flatMap (fun p => assignGroup p.1 p.2) by
    have h2 := h (nameGroups l) [] (by simpa using hnd)
    simpa [deduplicate_names] using h2
  intro gs
  induction gs with
  | nil => intro res _; simp
  | cons g gs ih =>
      intro res hnd2
      rw [List.flatMap_cons, List.map_append, List.map_append, ← List.append_assoc,
        List.nodup_append] at hnd2
      obtain ⟨hleft, hrest, hdisj⟩ := hnd2
      rw [List.nodup_append] at hleft
      obtain ⟨hres, hag, hdisj2⟩ := hleft
      rw [List.foldl_cons]
      have hfresh : ∀ p ∈ assignGroup g.1 g.2, p.1 ∉ res.map (·.1) := by
        intro p hp hmem
        exact hdisj2 hmem (List.mem_map.2 ⟨p, hp, rfl⟩)
      rw [foldl_dictInsert_append _ res hfresh hag]
      rw [ih (res ++ assignGroup g.1 g.2) ?hn, List.flatMap_cons, List.append_assoc]
      case hn =>
        rw [List.map_append, List.nodup_append]
        refine ⟨by rw [List.map_append, List.nodup_append]; exact ⟨hres, hag, hdisj2⟩, hrest, ?_⟩
        intro x hx
        rw [List.map_append] at hx
        exact hdisj hx

/-- With globally distinct keys, a pair of the concatenation whose key
belongs to a given segment lies in that segment. -/
theorem mem_segment {k : Nat} {v : String} :
    ∀ {segs : List (List (Nat × String))},
      ((segs.flatMap (fun s => s.map (·.1))).Nodup) →
      (k, v) ∈ segs.flatMap (fun s => s) →
      ∀ {s}, s ∈ segs → k ∈ s.map (·.1) → (k, v) ∈ s := by
  intro segs
  induction segs with
  | nil => intro _ h; simp at h
  | cons s₀ rest ih =>
      intro hnd hmem s hs hk
      rw [List.flatMap_cons, List.nodup_append] at hnd
      obtain ⟨h₀, hrest, hdisj⟩ := hnd
      rw [List.flatMap_cons, List.mem_append] at hmem
      rcases List.mem_cons.1 hs with hse | hse
      · subst hse
        rcases hmem with hm | hm
        · exact hm
        · exfalso
          obtain ⟨s', hs', hm'⟩ := List.mem_flatMap.1 hm
          exact hdisj hk (List.mem_flatMap.2 ⟨s', hs', List.mem_map.2 ⟨(k, v), hm', rfl⟩⟩)
      · rcases hmem with hm | hm
        · exfalso
          have hk0 : k ∈ s₀.map (·.1) := List.mem_map.2 ⟨(k, v), hm, rfl⟩
          exact hdisj hk0 (List.mem_flatMap.2 ⟨s, hse, hk⟩)
        · exact ih hrest hm hse hk

/-! String shape lemmas: the bracketed identifier suffix is a prefix code
relative to the display names. -/

theorem rev_digit_bracket :
    ∀ (a₁ a₂ r₁ r₂ : List Char),
      (∀ c ∈ a₁, c.isDigit = true) → (∀ c ∈ a₂, c.isDigit = true) →
      a₁ ++ '[' :: r₁ = a₂ ++ '[' :: r₂ → a₁ = a₂ ∧ r₁ = r₂
  | [], [], r₁, r₂, _, _, h => by
      simp only [List.nil_append] at h
      exact ⟨rfl, List.tail_eq_of_cons_eq h⟩
  | [], c :: a₂, r₁, r₂, _, h₂, h => by
      exfalso
      simp only [List.nil_append, List.cons_append] at h
      have hc : '[' = c := List.head_eq_of_cons_eq h
      have := h₂ c (by simp)
      rw [← hc] at this
      exact absurd this (by decide)
  | c :: a₁, [], r₁, r₂, h₁, _, h => by
      exfalso
      simp only [List.nil_append, List.cons_append] at h
      have hc : c = '[' := List.head_eq_of_cons_eq h
      have := h₁ c (by simp)
      rw [hc] at this
      exact absurd this (by decide)
  | c₁ :: a₁, c₂ :: a₂, r₁, r₂, h₁, h₂, h => by
      simp only [List.cons_append] at h
      have hc : c₁ = c₂ := List.head_eq_of_cons_eq h
      obtain ⟨ha, hr⟩ := rev_digit_bracket a₁ a₂ r₁ r₂
        (fun c hc => h₁ c (by simp [hc])) (fun c hc => h₂ c (by simp [hc]))
        (List.tail_eq_of_cons_eq h)
      exact ⟨by rw [hc, ha], hr⟩

theorem append_bracket_inj {x₁ x₂ d₁ d₂ : List Char}
    (hd₁ : ∀ c ∈ d₁, c.isDigit = true) (hd₂ : ∀ c ∈ d₂, c.isDigit = true)
    (h : x₁ ++ '[' :: d₁ = x₂ ++ '[' :: d₂) : x₁ = x₂ ∧ d₁ = d₂ := by
  have hrev := congrArg List.reverse h
  have h1 : d₁.reverse ++ '[' :: x₁.reverse = d₂.reverse ++ '[' :: x₂.reverse := by
    simpa [List.reverse_append, List.append_assoc] using hrev
  obtain ⟨ha, hr⟩ := rev_digit_bracket d₁.reverse d₂.reverse x₁.reverse x₂.reverse
    (fun c hc => hd₁ c (List.mem_reverse.1 hc)) (fun c hc => hd₂ c (List.mem_reverse.1 hc)) h1
  constructor
  · simpa using congrArg List.reverse hr
  · simpa using congrArg List.reverse ha

/-- Injectivity of the `f"{display} [{id}]"` encoding. -/
theorem bracketName_inj {disp₁ disp₂ : String} {id₁ id₂ : Nat}
    (h : disp₁ ++ " [" ++ natToString id₁ ++ "]" = disp₂ ++ " [" ++ natToString id₂ ++ "]") :
    disp₁ = disp₂ ∧ id₁ = id₂ := by
  have hd := congrArg String.data h
  simp only [String.data_append] at hd
  have h2 : (disp₁.data ++ [' ']) ++ '[' :: (natToString id₁).data =
      (disp₂.data ++ [' ']) ++ '[' :: (natToString id₂).data := by
    have h3 := (List.append_inj' hd rfl).1
    simpa [List.append_assoc] using h3
  obtain ⟨hx, hdg⟩ := append_bracket_inj (natToString_digits id₁) (natToString_digits id₂) h2
  constructor
  · exact String.ext (List.append_inj' hx rfl).1
  · exact natToString_injective (String.ext hdg)

theorem natToString_data_len_pos (n : Nat) : 0 < (natToString n).data.length := by
  have h : (natToString n).data = natDigits n := by simp [natToString, List.asString]
  rw [h]
  cases hn : natDigits n with
  | nil => exact absurd hn (natDigits_ne_nil n)
  | cons c r => simp

/-- A display name (the base name, or the base name with a parenthesised
timestamp) is never equal to a bracketed-identifier name built over a
display of the same base. -/
theorem displayOf_ne_bracket (b : String) (d : DS) (disp₂ : String) (k : Nat)
    (hform : disp₂ = b ∨ ∃ ts, disp₂ = b ++ " (" ++ ts ++ ")") :
    displayOf b d ≠ disp₂ ++ " [" ++ natToString k ++ "]" := by
  unfold displayOf
  cases hts : formatTimestamp d.experiment_start_time with
  | none =>
      intro h
      have hlen := congrArg (fun s : String => s.data.length) h
      simp only [String.data_append, List.length_append] at hlen
      have hd2 : b.data.length ≤ disp₂.data.length := by
        rcases hform with h2 | ⟨ts, h2⟩
        · rw [h2]
        · subst h2
          simp only [String.data_append, List.length_append]
          omega
      have hs := natToString_data_len_pos k
      omega
  | some ts =>
      intro h
      have hd := congrArg String.data h
      simp only [String.data_append] at hd
      have hl := congrArg List.getLast? hd
      rw [List.getLast?_concat, List.getLast?_concat] at hl
      injection hl with hl2
      exact absurd hl2 (by decide)

/-- The shape of a display name. -/
theorem displayOf_form (b : String) (d : DS) :
    displayOf b d = b ∨ ∃ ts, displayOf b d = b ++ " (" ++ ts ++ ")" := by
  unfold displayOf
  cases formatTimestamp d.experiment_start_time with
  | none => exact .inl rfl
  | some ts => exact .inr ⟨ts, rfl⟩

/-! Injectivity of the assignments within one base-name group. -/

theorem assignSub_inj {disp : String} {k₁ k₂ : Nat} {n₁ n₂ : String} (hne : k₁ ≠ k₂) :
    ∀ {sub : List DS}, (k₁, n₁) ∈ assignSub disp sub → (k₂, n₂) ∈ assignSub disp sub →
      n₁ ≠ n₂
  | [], h₁, _ => absurd h₁ (by simp [assignSub])
  | [d], h₁, h₂ => by
      exfalso
      simp only [assignSub, List.mem_singleton] at h₁ h₂
      have hk₁ : k₁ = d.id := congrArg Prod.fst h₁
      have hk₂ : k₂ = d.id := congrArg Prod.fst h₂
      exact hne (hk₁.trans hk₂.symm)
  | d₁ :: d₂ :: rest, h₁, h₂ => by
      have hred : assignSub disp (d₁ :: d₂ :: rest) =
          (d₁ :: d₂ :: rest).map
            (fun d => (d.id, disp ++ " [" ++ natToString d.id ++ "]")) := rfl
      rw [hred] at h₁ h₂
      obtain ⟨e₁, _, he₁⟩ := List.mem_map.1 h₁
      obtain ⟨e₂, _, he₂⟩ := List.mem_map.1 h₂
      have hn₁ : n₁ = disp ++ " [" ++ natToString k₁ ++ "]" := by
        have hk : e₁.id = k₁ := congrArg Prod.fst he₁
        have hv : e₁.id = k₁ ∧ disp ++ " [" ++ natToString e₁.id ++ "]" = n₁ :=
          ⟨hk, congrArg Prod.snd he₁⟩
        rw [← hv.2, hv.1]
      have hn₂ : n₂ = disp ++ " [" ++ natToString k₂ ++ "]" := by
        have hk : e₂.id = k₂ := congrArg Prod.fst he₂
        have hv : disp ++ " [" ++ natToString e₂.id ++ "]" = n₂ := congrArg Prod.snd he₂
        rw [← hv, hk]
      rw [hn₁, hn₂]
      intro hcontra
      exact hne (bracketName_inj hcontra).2

/-- Either form a pair of `assignSub` can take. -/
theorem assignSub_mem_cases {disp : String} {k : Nat} {n : String} :
    ∀ {sub : List DS}, (k, n) ∈ assignSub disp sub →
      n = disp ∨ n = disp ++ " [" ++ natToString k ++ "]"
  | [], h => absurd h (by simp [assignSub])
  | [d], h => by
      simp only [assignSub, List.mem_singleton] at h
      have hv : n = disp := congrArg Prod.snd h
      exact .inl hv
  | d₁ :: d₂ :: rest, h => by
      have hred : assignSub disp (d₁ :: d₂ :: rest) =
          (d₁ :: d₂ :: rest).map
            (fun d => (d.id, disp ++ " [" ++ natToString d.id ++ "]")) := rfl
      rw [hred] at h
      obtain ⟨e, _, he⟩ := List.mem_map.1 h
      refine .inr ?_
      have hk : e.id = k := congrArg Prod.fst he
      have hv : disp ++ " [" ++ natToString e.id ++ "]" = n := congrArg Prod.snd he
      rw [← hv, hk]

/-- The key of every timestamp sub-group is a display name over the base
name. -/
theorem tsGroups_key_form {b : String} {g : List DS} {p : String × List DS}
    (hp : p ∈ tsGroups b g) : p.1 = b ∨ ∃ ts, p.1 = b ++ " (" ++ ts ++ ")" := by
  obtain ⟨_, h2, h3⟩ := tsGroups_wf b g
  rcases hd : p.2 with _ | ⟨d, r⟩
  · exact absurd hd (h3 p hp)
  · have hk : displayOf b d = p.1 := h2 p hp d (by rw [hd]; simp)
    rw [← hk]
    exact displayOf_form b d

/-- Within one base-name group, distinct identifiers receive distinct
names. -/
theorem assignGroup_inj (b : String) (g : List DS) {k₁ k₂ : Nat} {n₁ n₂ : String}
    (hne : k₁ ≠ k₂)
    (h₁ : (k₁, n₁) ∈ assignGroup b g) (h₂ : (k₂, n₂) ∈ assignGroup b g) : n₁ ≠ n₂ := by
  match g with
  | [] =>
      exact absurd h₁ (by simp [assignGroup, tsGroups])
  | [d] =>
      exfalso
      simp only [assignGroup, List.mem_singleton] at h₁ h₂
      have hk₁ : k₁ = d.id := congrArg Prod.fst h₁
      have hk₂ : k₂ = d.id := congrArg Prod.fst h₂
      exact hne (hk₁.trans hk₂.symm)
  | da :: db :: rest =>
      have hred : assignGroup b (da :: db :: rest) =
          (tsGroups b (da :: db :: rest)).flatMap (fun p => assignSub p.1 p.2) := rfl
      rw [hred] at h₁ h₂
      obtain ⟨p₁, hp₁, hm₁⟩ := List.mem_flatMap.1 h₁
      obtain ⟨p₂, hp₂, hm₂⟩ := List.mem_flatMap.1 h₂
      have hwf := tsGroups_wf b (da :: db :: rest)
      by_cases hdisp : p₁.1 = p₂.1
      · -- same sub-group
        have hsub : p₁.2 = p₂.2 := by
          refine value_eq_of_mem_nodup (k := p₁.1) hwf.1 ?_ ?_
          · exact (Prod.mk.eta (p := p₁)) ▸ hp₁
          · rw [hdisp]
            exact (Prod.mk.eta (p := p₂)) ▸ hp₂
        rw [hdisp, hsub] at hm₁
        exact assignSub_inj hne hm₁ hm₂
      · -- different sub-groups, distinct display keys
        rcases assignSub_mem_cases hm₁ with hn₁ | hn₁ <;>
          rcases assignSub_mem_cases hm₂ with hn₂ | hn₂
        · rw [hn₁, hn₂]; exact hdisp
        · rw [hn₁, hn₂]
          rcases hd : p₁.2 with _ | ⟨d, r⟩
          · exact absurd hd (hwf.2.2 p₁ hp₁)
          · have hk : displayOf b d = p₁.1 := hwf.2.1 p₁ hp₁ d (by rw [hd]; simp)
            rw [← hk]
            exact displayOf_ne_bracket b d p₂.1 k₂ (tsGroups_key_form hp₂)
        · rw [hn₁, hn₂]
          rcases hd : p₂.2 with _ | ⟨d, r⟩
          · exact absurd hd (hwf.2.2 p₂ hp₂)
          · have hk : displayOf b d = p₂.1 := hwf.2.1 p₂ hp₂ d (by rw [hd]; simp)
            intro hcontra
            rw [← hk] at hcontra
            exact displayOf_ne_bracket b d p₁.1 k₁ (tsGroups_key_form hp₁) hcontra.symm
        · rw [hn₁, hn₂]
          intro hcontra
          exact hdisp (bracketName_inj hcontra).1

theorem nodup_segment {s : List (Nat × String)} :
    ∀ {segs : List (List (Nat × String))},
      ((segs.flatMap (fun s => s.map (·.1))).Nodup) → s ∈ segs → (s.map (·.1)).Nodup := by
  intro segs
  induction segs with
  | nil => intro _ h; simp at h
  | cons s₀ rest ih =>
      intro hnd hs
      rw [List.flatMap_cons, List.nodup_append] at hnd
      rcases List.mem_cons.1 hs with he | he
      · exact he ▸ hnd.1
      · exact ih hnd.2.1 he

/-- C2 (amended): for every dataset collection with pairwise-distinct
identifiers, `deduplicate_names` assigns every input identifier a name, the
returned dictionary binds each identifier once, and no two identifiers
whose records share the same sanitized base name receive the same display
name.  (Cross-group collisions remain possible — see the
counterexample.) -/
theorem C2_within_group_unique (l : List DS) (hnd : (l.map (·.id)).Nodup) :
    (∀ d ∈ l, (dictGet? d.id (deduplicate_names l)).isSome = true) ∧
    ((deduplicate_names l).map (·.1)).Nodup ∧
    (∀ d₁ ∈ l, ∀ d₂ ∈ l, baseName d₁ = baseName d₂ → d₁.id ≠ d₂.id →
      ∀ n₁ n₂, dictGet? d₁.id (deduplicate_names l) = some n₁ →
        dictGet? d₂.id (deduplicate_names l) = some n₂ → n₁ ≠ n₂) := by
  have hjnd : (((nameGroups l).flatMap fun p => assignGroup p.1 p.2).map (·.1)).Nodup :=
    (joined_ids_perm l).nodup_iff.2 hnd
  have hjoin := deduplicate_eq_join l hjnd
  have hsegnd : ((((nameGroups l).map (fun p => assignGroup p.1 p.2)).flatMap
      (fun s => s.map (·.1))).Nodup) := by
    rw [List.flatMap_map]
    have he : ((nameGroups l).flatMap fun p => (assignGroup p.1 p.2).map (·.1)) =
        (((nameGroups l).flatMap fun p => assignGroup p.1 p.2).map (·.1)) := by
      rw [List.map_flatMap]
    rw [he]
    exact hjnd
  refine ⟨?_, ?_, ?_⟩
  · intro d hd
    apply dictGet?_isSome_of_mem_keys
    rw [hjoin]
    exact ((joined_ids_perm l).mem_iff).2 (List.mem_map.2 ⟨d, hd, rfl⟩)
  · rw [hjoin]; exact hjnd
  · intro d₁ hd₁ d₂ hd₂ hbase hne n₁ n₂ hg₁ hg₂
    obtain ⟨g₁, hgm₁, hdm₁⟩ := groupFold_mem baseName l [] d₁ hd₁
    obtain ⟨g₂, hgm₂, hdm₂⟩ := groupFold_mem baseName l [] d₂ hd₂
    have hgm₂' : (baseName d₁, g₂) ∈ nameGroups l := by
      rw [hbase]; exact hgm₂
    have hgg : g₁ = g₂ := value_eq_of_mem_nodup (nameGroups_wf l).1 hgm₁ hgm₂'
    subst hgg
    have hsmem : assignGroup (baseName d₁) g₁ ∈
        (nameGroups l).map (fun p => assignGroup p.1 p.2) :=
      List.mem_map.2 ⟨(baseName d₁, g₁), hgm₁, rfl⟩
    have hflat : ((nameGroups l).map (fun p => assignGroup p.1 p.2)).flatMap (fun s => s) =
        (nameGroups l).flatMap fun p => assignGroup p.1 p.2 := by
      rw [List.flatMap_map]
    have hkeys : (assignGroup (baseName d₁) g₁).map (·.1) =
        (assignGroup (baseName d₁) g₁).map (·.1) := rfl
    have hk₁ : d₁.id ∈ (assignGroup (baseName d₁) g₁).map (·.1) :=
      (assignGroup_ids_perm (baseName d₁) g₁).mem_iff.2 (List.mem_map.2 ⟨d₁, hdm₁, rfl⟩)
    have hk₂ : d₂.id ∈ (assignGroup (baseName d₁) g₁).map (·.1) :=
      (assignGroup_ids_perm (baseName d₁) g₁).mem_iff.2 (List.mem_map.2 ⟨d₂, hdm₂, rfl⟩)
    have hseg₁ : (d₁.id, n₁) ∈ assignGroup (baseName d₁) g₁ := by
      refine mem_segment hsegnd ?_ hsmem hk₁
      rw [hflat, ← hjoin]
      exact mem_of_dictGet? hg₁
    have hseg₂ : (d₂.id, n₂) ∈ assignGroup (baseName d₁) g₁ := by
      refine mem_segment hsegnd ?_ hsmem hk₂
      rw [hflat, ← hjoin]
      exact mem_of_dictGet? hg₂
    exact assignGroup_inj (baseName d₁) g₁ hne hseg₁ hseg₂

/-- Witness for C2 at the counterexample collection: identifiers are
pairwise distinct, and the two same-base-name datasets 2 and 3 do get
distinct names. -/
theorem C2_within_group_unique_witness :
    (dsCol.map (·.id)).Nodup ∧
      ("foo (2024-06-15 10:30)" : String) ≠ "foo (2024-06-16 10:30)" := by
  refine ⟨by decide, ?_⟩
  refine (C2_within_group_unique dsCol (by decide)).2.2
    ⟨2, some "foo", some "2024-06-15T10:30:00", []⟩ ?_
    ⟨3, some "foo", some "2024-06-16T10:30:00", []⟩ ?_ (by rfl) (by decide)
    "foo (2024-06-15 10:30)" "foo (2024-06-16 10:30)" (by rfl) (by rfl)
  · exact List.mem_cons_of_mem _ (List.mem_cons_self _ _)
  · exact List.mem_cons_of_mem _ (List.mem_cons_of_mem _ (List.mem_cons_self _ _))

/-! ### C8 — the Published version map -/

theorem dictGet?_of_mem_nodup {κ α : Type} [DecidableEq κ] {k : κ} {v : α} :
    ∀ {m : List (κ × α)}, (m.map (·.1)).Nodup → (k, v) ∈ m → dictGet? k m = some v := by
  intro m
  induction m with
  | nil => intro _ h; simp at h
  | cons p r ih =>
      intro hnd hm
      rw [List.map_cons, List.nodup_cons] at hnd
      rw [dictGet?]
      rcases List.mem_cons.1 hm with he | he
      · rw [if_pos (congrArg Prod.fst he).symm]
        exact congrArg (some ·) (congrArg Prod.snd he).symm
      · by_cases hp : p.1 = k
        · exfalso
          exact hnd.1 (hp ▸ List.mem_map.2 ⟨(k, v), he, rfl⟩)
        · rw [if_neg hp]
          exact ih hnd.2 he

theorem vlabel_ne_original (n : Nat) : ("v" ++ natToString n) ≠ "Original" := by
  intro h
  have h2 := congrArg (fun s : String => s.data.head?) h
  have h3 : (some 'v' : Option Char) = some 'O' := h2
  exact absurd h3 (by decide)

theorem vlabel_inj {n₁ n₂ : Nat} (h : ("v" ++ natToString n₁) = "v" ++ natToString n₂) :
    n₁ = n₂ := by
  have hd : 'v' :: (natToString n₁).data = 'v' :: (natToString n₂).data :=
    congrArg String.data h
  exact natToString_injective (String.ext (List.tail_eq_of_cons_eq hd))

theorem dictGet?_dictInsert_ne {κ α : Type} [DecidableEq κ] {k k' : κ} {v : α} (hne : k' ≠ k) :
    ∀ m : List (κ × α), dictGet? k (dictInsert k' v m) = dictGet? k m
  | [] => by simp [dictGet?, dictInsert, hne]
  | p :: r => by
      by_cases hp : p.1 = k'
      · rw [dictInsert, if_pos hp, dictGet?, dictGet?, if_neg hne, if_neg (hp ▸ hne)]
      · rw [dictInsert, if_neg hp, dictGet?, dictGet?]
        by_cases hk : p.1 = k
        · rw [if_pos hk, if_pos hk]
        · rw [if_neg hk, if_neg hk]
          exact dictGet?_dictInsert_ne hne r

/-- The `"Original"` binding survives every version-label insertion. -/
theorem buildVersions_original_aux {i : Nat} :
    ∀ (vs : List VRef) (m : List (String × Nat)), dictGet? "Original" m = some i →
      dictGet? "Original"
          (vs.foldl (fun m v => dictInsert ("v" ++ natToString v.version) v.dataset_id m) m) =
        some i
  | [], _, h => h
  | v :: vs, m, h => by
      rw [List.foldl_cons]
      exact buildVersions_original_aux vs _
        (by rw [dictGet?_dictInsert_ne (vlabel_ne_original v.version)]; exact h)

theorem buildVersions_original (ds : DS) :
    dictGet? "Original" (buildVersions ds) = some ds.id :=
  buildVersions_original_aux ds.versions [("Original", ds.id)] (by simp [dictGet?])

/-- With pairwise-distinct version numbers, the version dictionary is the
`"Original"` binding followed by the `v<n>` bindings in order. -/
theorem buildVersions_form (ds : DS) (hv : (ds.versions.map (·.version)).Nodup) :
    buildVersions ds = ("Original", ds.id) ::
      ds.versions.map (fun v => ("v" ++ natToString v.version, v.dataset_id)) := by
  unfold buildVersions
  have hfold :
      ds.versions.foldl
          (fun m v => dictInsert ("v" ++ natToString v.version) v.dataset_id m)
          [("Original", ds.id)] =
        (ds.versions.map (fun v => ("v" ++ natToString v.version, v.dataset_id))).foldl
          (fun r q => dictInsert q.1 q.2 r) [("Original", ds.id)] := by
    rw [List.foldl_map]
  rw [hfold]
  have hlbl : ((ds.versions.map
      (fun v => ("v" ++ natToString v.version, v.dataset_id))).map (·.1)).Nodup := by
    rw [List.map_map]
    have he : ((·.1) ∘ fun v : VRef => ("v" ++ natToString v.version, v.dataset_id)) =
        fun v : VRef => "v" ++ natToString v.version := rfl
    rw [he]
    have hinj : ∀ v₁ ∈ ds.versions, ∀ v₂ ∈ ds.versions,
        ("v" ++ natToString v₁.version) = "v" ++ natToString v₂.version →
          v₁.version = v₂.version := fun _ _ _ _ h => vlabel_inj h
    -- transfer Nodup along the injective label map
    have hmapped : (ds.versions.map (fun v : VRef => "v" ++ natToString v.version)) =
        (ds.versions.map (·.version)).map (fun n => "v" ++ natToString n) := by
      rw [List.map_map]
      rfl
    rw [hmapped]
    exact hv.map (fun n₁ n₂ h => vlabel_inj h)
  rw [foldl_dictInsert_append _ _ ?fresh hlbl]
  · rfl
  case fresh =>
    intro p hp
    obtain ⟨v, _, hv2⟩ := List.mem_map.1 hp
    simp only [List.map_cons, List.map_nil, List.mem_singleton]
    intro hcon
    have hp1 : p.1 = "v" ++ natToString v.version := by rw [← hv2]
    rw [hp1] at hcon
    exact vlabel_ne_original v.version hcon

/-- C8: in a freshly built Published listing with pairwise-distinct folder
names, the version map of each dataset's folder name binds `"Original"` to
the dataset's own identifier; with pairwise-distinct version numbers, the
labels are exactly `"Original"` followed by `v<n>` for each recorded
version, each `v<n>` bound to that version's dataset identifier. -/
theorem C8_version_map (datasets : List DS)
    (hnames : (datasets.map (folderNameOf (deduplicate_names datasets))).Nodup) :
    ∀ ds ∈ datasets,
      dictGet? (folderNameOf (deduplicate_names datasets) ds) (buildVersionMap datasets) =
        some (buildVersions ds) ∧
      dictGet? "Original" (buildVersions ds) = some ds.id ∧
      ((ds.versions.map (·.version)).Nodup →
        (buildVersions ds).map (·.1) =
          "Original" :: ds.versions.map (fun v => "v" ++ natToString v.version) ∧
        ∀ v ∈ ds.versions,
          dictGet? ("v" ++ natToString v.version) (buildVersions ds) = some v.dataset_id) := by
  intro ds hds
  have hvm : buildVersionMap datasets =
      datasets.map (fun d => (folderNameOf (deduplicate_names datasets) d, buildVersions d)) := by
    unfold buildVersionMap
    rw [show (datasets.foldl
        (fun vm d => dictInsert (folderNameOf (deduplicate_names datasets) d)
          (buildVersions d) vm) []) =
      ((datasets.map
        (fun d => (folderNameOf (deduplicate_names datasets) d, buildVersions d))).foldl
        (fun r q => dictInsert q.1 q.2 r) []) from by rw [List.foldl_map]]
    rw [foldl_dictInsert_append _ _ (by simp) ?nd]
    · rfl
    case nd =>
      rw [List.map_map]
      exact hnames
  refine ⟨?_, buildVersions_original ds, ?_⟩
  · rw [hvm]
    apply dictGet?_of_mem_nodup
    · rw [List.map_map]
      exact hnames
    · exact List.mem_map.2 ⟨ds, hds, rfl⟩
  · intro hv
    have hform := buildVersions_form ds hv
    constructor
    · rw [hform, List.map_cons, List.map_map]
      rfl
    · intro v hvv
      rw [hform]
      apply dictGet?_of_mem_nodup
      · rw [← hform]
        rw [buildVersions_form ds hv, List.map_cons, List.map_map]
        have he : ((·.1) ∘ fun v : VRef => ("v" ++ natToString v.version, v.dataset_id)) =
            fun v : VRef => "v" ++ natToString v.version := rfl
        rw [he, List.nodup_cons]
        constructor
        · intro hmem
          obtain ⟨v', _, hv'⟩ := List.mem_map.1 hmem
          exact vlabel_ne_original v'.version hv'
        · have hmapped : (ds.versions.map (fun v : VRef => "v" ++ natToString v.version)) =
              (ds.versions.map (·.version)).map (fun n => "v" ++ natToString n) := by
            rw [List.map_map]
            rfl
          rw [hmapped]
          exact hv.map (fun n₁ n₂ h => vlabel_inj h)
      · exact List.mem_cons_of_mem _ (List.mem_map.2 ⟨v, hvv, rfl⟩)

/-- Witness for C8: one dataset with recorded versions 2 and 5 yields
exactly the labels `Original`, `v2`, `v5` bound to the right
identifiers. -/
theorem C8_version_map_witness :
    (buildVersions ⟨10, some "alpha", none, [⟨2, 21⟩, ⟨5, 22⟩]⟩).map (·.1) =
        ["Original", "v2", "v5"] ∧
      dictGet? "Original" (buildVersions ⟨10, some "alpha", none, [⟨2, 21⟩, ⟨5, 22⟩]⟩) =
        some 10 ∧
      dictGet? "v2" (buildVersions ⟨10, some "alpha", none, [⟨2, 21⟩, ⟨5, 22⟩]⟩) = some 21 ∧
      dictGet? "v5" (buildVersions ⟨10, some "alpha", none, [⟨2, 21⟩, ⟨5, 22⟩]⟩) = some 22 := by
  have h := C8_version_map [⟨10, some "alpha", none, [⟨2, 21⟩, ⟨5, 22⟩]⟩] (by decide)
    ⟨10, some "alpha", none, [⟨2, 21⟩, ⟨5, 22⟩]⟩ (List.mem_singleton.2 rfl)
  obtain ⟨_, horig, hrest⟩ := h
  obtain ⟨hkeys, hlook⟩ := hrest (by decide)
  refine ⟨?_, horig, ?_, ?_⟩
  · rw [hkeys]
    rfl
  · have h2 := hlook ⟨2, 21⟩ (by simp)
    simpa using h2
  · have h5 := hlook ⟨5, 22⟩ (by simp)
    simpa using h5

/-! ### C5/C9 — helper lemmas: path resolution under clean subpaths -/

theorem absLookup_root_cons (st : CacheState) (rest : List String) :
    absLookup st (cacheRootName :: rest) = nodeLookup (rootNode st) rest := by
  show (if cacheRootName = cacheRootName then nodeLookup (rootNode st) rest else none) = _
  rw [if_pos rfl]

theorem nodeLookup_root_absent {st : CacheState} {n : String}
    (h : lookupEntry st n = none) (segs : List String) :
    nodeLookup (rootNode st) (n :: segs) = none := by
  show nodeLookup (.dir (st.entries.map (fun e => (e.name, e.node)))) (n :: segs) = none
  have hd : dictGet? n (st.entries.map (fun e => (e.name, e.node))) = none := by
    rw [dictGet?_map_nodes]
    show (st.entries.find? (fun e => e.name = n)).map (·.node) = none
    rw [show st.entries.find? (fun e => e.name = n) = none from h]
    rfl
  rw [nodeLookup]
  rw [hd]

theorem nodeLookup_root_present {st : CacheState} {n : String} {e : CEntry}
    (h : lookupEntry st n = some e) (segs : List String) :
    nodeLookup (rootNode st) (n :: segs) = nodeLookup e.node segs := by
  show nodeLookup (.dir (st.entries.map (fun e => (e.name, e.node)))) (n :: segs) = _
  have hd : dictGet? n (st.entries.map (fun e => (e.name, e.node))) = some e.node := by
    rw [dictGet?_map_nodes]
    show (st.entries.find? (fun e => e.name = n)).map (·.node) = _
    rw [show st.entries.find? (fun e => e.name = n) = some e from h]
    rfl
  rw [nodeLookup]
  rw [hd]

theorem strHasPre_append (a t : String) : strHasPre a (a ++ t) = true := by
  unfold strHasPre
  rw [String.data_append]
  induction a.data with
  | nil => simp
  | cons c r ih => simp [List.isPrefixOf, ih]

theorem foldl_slash_extends (l : List String) :
    ∀ acc : String, ∃ t, l.foldl (fun acc s => acc ++ "/" ++ s) acc = acc ++ t := by
  induction l with
  | nil =>
      intro acc
      exact ⟨"", by simp⟩
  | cons c r ih =>
      intro acc
      obtain ⟨t, ht⟩ := ih (acc ++ "/" ++ c)
      exact ⟨"/" ++ c ++ t, by rw [List.foldl_cons, ht]; simp [String.append_assoc]⟩

theorem joinSlash_cons (a : String) (r : List String) :
    joinSlash (a :: r) = r.foldl (fun acc s => acc ++ "/" ++ s) a := rfl

theorem pathStr_append_extends (base segs : List String) :
    ∃ t, pathStr (base ++ segs) = pathStr base ++ t := by
  match base with
  | [] =>
      match segs with
      | [] => exact ⟨"", by simp⟩
      | s :: r =>
          obtain ⟨t, ht⟩ := foldl_slash_extends r s
          refine ⟨s ++ t, ?_⟩
          show "/" ++ joinSlash (s :: r) = "/" ++ joinSlash ([] : List String) ++ (s ++ t)
          rw [joinSlash_cons, ht]
          show "/" ++ (s ++ t) = "/" ++ "" ++ (s ++ t)
          simp
  | b :: br =>
      show ∃ t, "/" ++ joinSlash ((b :: br) ++ segs) = "/" ++ joinSlash (b :: br) ++ t
      rw [List.cons_append, joinSlash_cons, joinSlash_cons, List.foldl_append]
      obtain ⟨t, ht⟩ := foldl_slash_extends segs (br.foldl (fun acc s => acc ++ "/" ++ s) b)
      exact ⟨t, by rw [ht, String.append_assoc]⟩

theorem strHasPre_pathStr (base segs : List String) :
    strHasPre (pathStr base) (pathStr (base ++ segs)) = true := by
  obtain ⟨t, ht⟩ := pathStr_append_extends base segs
  rw [ht]
  exact strHasPre_append _ _

/-- `resolve_path` for a clean relative subpath when no identifier-named
entry exists: absent. -/
theorem resolve_path_clean_absent {st : CacheState} {id : Nat} {sub : String}
    (habs : lookupEntry st (natToString id) = none)
    (hsl : startsWithSlash sub = false)
    (hdots : ∀ c ∈ parseComponents sub, c ≠ "..") :
    resolve_path st id sub = none := by
  have hcomb : ∀ c ∈ datasetDirComps id ++ parseComponents sub, c ≠ ".." := by
    intro c hc
    rcases List.mem_append.1 hc with h | h
    · exact datasetDirComps_no_dots id c h
    · exact hdots c h
  have hex : pathExists st (datasetDirComps id ++ parseComponents sub) = false := by
    unfold pathExists
    rw [show (datasetDirComps id ++ parseComponents sub) =
      cacheRootName :: (natToString id :: parseComponents sub) from rfl]
    rw [absLookup_root_cons, nodeLookup_root_absent habs]
    rfl
  unfold resolve_path
  rw [hsl]
  simp only [Bool.false_eq_true, if_false]
  rw [normAbs_no_dots hcomb]
  by_cases hpre : strHasPre (pathStr (datasetDirComps id))
      (pathStr (datasetDirComps id ++ parseComponents sub)) = true
  · rw [if_pos hpre, hex]
    simp
  · rw [if_neg hpre]

/-- `resolve_path` for a clean relative subpath when the identifier-named
entry exists: presence is decided by the file-tree lookup. -/
theorem resolve_path_clean_present {st : CacheState} {id : Nat} {sub : String} {e : CEntry}
    (hlk : lookupEntry st (natToString id) = some e)
    (hsl : startsWithSlash sub = false)
    (hdots : ∀ c ∈ parseComponents sub, c ≠ "..") :
    resolve_path st id sub =
      if (nodeLookup e.node (parseComponents sub)).isSome
      then some (datasetDirComps id ++ parseComponents sub) else none := by
  have hcomb : ∀ c ∈ datasetDirComps id ++ parseComponents sub, c ≠ ".." := by
    intro c hc
    rcases List.mem_append.1 hc with h | h
    · exact datasetDirComps_no_dots id c h
    · exact hdots c h
  have hex : pathExists st (datasetDirComps id ++ parseComponents sub) =
      (nodeLookup e.node (parseComponents sub)).isSome := by
    unfold pathExists
    rw [show (datasetDirComps id ++ parseComponents sub) =
      cacheRootName :: (natToString id :: parseComponents sub) from rfl]
    rw [absLookup_root_cons, nodeLookup_root_present hlk]
  unfold resolve_path
  rw [hsl]
  simp only [Bool.false_eq_true, if_false]
  rw [normAbs_no_dots hcomb]
  rw [if_pos (strHasPre_pathStr (datasetDirComps id) (parseComponents sub))]
  rw [hex]

/-- `getattr` leaves the state untouched and performs no download, on every
path: every branch of the source returns the incoming state. -/
theorem getattrOp_frame (ctx : FSCtx) (st : SysState) (path : String) :
    (getattrOp ctx st path).st = st ∧ (getattrOp ctx st path).dls = 0 := by
  refine ⟨?_, ?_⟩ <;>
  · unfold getattrOp
    dsimp only
    repeat' split
    all_goals rfl

/-- Reduction of `getattr` on a standard-category content path. -/
theorem getattrOp_standard {ctx : FSCtx} (st : SysState) {path : String} {k : CategoryKey}
    {dsname sub : String} {ds_id : Nat}
    (hparse : parse_path ctx path = (.known k, some dsname, some sub))
    (hav : ctx.availableCats.contains k = true)
    (hk : ¬ k = .builtin .PUBLISHED)
    (hfl : dictGet? dsname (ctx.listings k).folder_lookup = some ds_id) :
    getattrOp ctx st path =
      ⟨(match resolve_path st.cache ds_id sub with
        | none => .error (.errno .ENOENT)
        | some real =>
            match absLookup st.cache real with
            | some (.dir _) => .ok (.dirAttr 0)
            | some (.file sz) => .ok (.fileAttr sz)
            | none => .error (.errno .ENOENT)), st, 0⟩ := by
  unfold getattrOp
  rw [hparse]
  dsimp only
  rw [if_neg (show ¬¬ctx.availableCats.contains k = true by rw [hav]; exact fun h => h rfl)]
  rw [if_neg (show ¬(dictGet? dsname (ctx.listings k).folder_lookup).isNone = true by
    rw [hfl]; exact fun h => nomatch h)]
  rw [if_neg hk, hfl]
  dsimp only
  cases hr : resolve_path st.cache ds_id sub with
  | none => rfl
  | some real =>
      dsimp only
      cases habs : absLookup st.cache real with
      | none => rfl
      | some nd => cases nd <;> rfl

/-- Reduction of `getattr` on a Published content path (below the version
level). -/
theorem getattrOp_published {ctx : FSCtx} (st : SysState) {path : String}
    {dsname sub label inner : String} {fid vid : Nat} {versions : List (String × Nat)}
    (hparse : parse_path ctx path = (.known (.builtin .PUBLISHED), some dsname, some sub))
    (hav : ctx.availableCats.contains (.builtin .PUBLISHED) = true)
    (hfl : dictGet? dsname (ctx.listings (.builtin .PUBLISHED)).folder_lookup = some fid)
    (hsplit : splitFirst sub = (label, some inner))
    (hvm : dictGet? dsname (ctx.listings (.builtin .PUBLISHED)).version_map = some versions)
    (hlbl : dictGet? label versions = some vid) :
    getattrOp ctx st path =
      ⟨(match resolve_path st.cache vid inner with
        | none => .error (.errno .ENOENT)
        | some real =>
            match absLookup st.cache real with
            | some (.dir _) => .ok (.dirAttr 0)
            | some (.file sz) => .ok (.fileAttr sz)
            | none => .error (.errno .ENOENT)), st, 0⟩ := by
  unfold getattrOp
  rw [hparse]
  dsimp only
  rw [if_neg (show ¬¬ctx.availableCats.contains (.builtin .PUBLISHED) = true by
    rw [hav]; exact fun h => h rfl)]
  rw [if_neg (show ¬(dictGet? dsname
      (ctx.listings (.builtin .PUBLISHED)).folder_lookup).isNone = true by
    rw [hfl]; exact fun h => nomatch h)]
  rw [if_pos rfl, hsplit]
  try dsimp only
  rw [show dictGetD dsname (ctx.listings (.builtin .PUBLISHED)).version_map [] = versions by
    unfold dictGetD; rw [hvm]; rfl]
  rw [if_neg (show ¬(dictGet? label versions).isNone = true by
    rw [hlbl]; exact fun h => nomatch h)]
  try dsimp only
  unfold resolveVersionId
  simp only [hvm, hlbl]
  cases hr : resolve_path st.cache vid inner with
  | none => rfl
  | some real =>
      dsimp only
      cases habs : absLookup st.cache real with
      | none => rfl
      | some nd => cases nd <;> rfl

/-- Reduction of `readdir` on a standard-category dataset path. -/
theorem readdirOp_standard {ctx : FSCtx} {dl : Except Unit (List (String × FSNode))}
    {tmpName : String} {now maxB : Nat} (st : SysState) {path : String} {k : CategoryKey}
    {dsname : String} {subOpt : Option String} {ds_id : Nat}
    (hparse : parse_path ctx path = (.known k, some dsname, subOpt))
    (hav : ctx.availableCats.contains k = true)
    (hk : ¬ k = .builtin .PUBLISHED)
    (hfl : dictGet? dsname (ctx.listings k).folder_lookup = some ds_id) :
    readdirOp ctx dl tmpName now maxB st path =
      match ensure_downloaded dl tmpName now maxB st.cache ds_id with
      | ⟨.error err, c, d⟩ => ⟨.error (.raised err), ⟨c, st.open_fds, st.next_fh⟩, d⟩
      | ⟨.ok _, c, d⟩ =>
          ⟨.ok ([".", ".."] ++ list_entries c ds_id
              (match subOpt with | some s => s | none => "")),
            ⟨c, st.open_fds, st.next_fh⟩, d⟩ := by
  cases subOpt with
  | none =>
      unfold readdirOp
      simp only [hparse]
      rw [if_neg (show ¬¬ctx.availableCats.contains k = true by
        rw [hav]; exact fun h => h rfl)]
      rw [if_neg hk, hfl]
      try dsimp only
      unfold runEnsure
      rcases hE : ensure_downloaded dl tmpName now maxB st.cache ds_id with ⟨res, c, d⟩
      rcases res with err | r <;> rfl
  | some s =>
      unfold readdirOp
      simp only [hparse]
      rw [if_neg (show ¬¬ctx.availableCats.contains k = true by
        rw [hav]; exact fun h => h rfl)]
      rw [if_neg hk, hfl]
      try dsimp only
      unfold runEnsure
      rcases hE : ensure_downloaded dl tmpName now maxB st.cache ds_id with ⟨res, c, d⟩
      rcases res with err | r <;> rfl

/-- Reduction of `open` on a standard-category content path. -/
theorem openFile_standard {ctx : FSCtx} {dl : Except Unit (List (String × FSNode))}
    {tmpName : String} {now maxB : Nat} (st : SysState) {path : String} {k : CategoryKey}
    {dsname sub : String} {ds_id : Nat}
    (hparse : parse_path ctx path = (.known k, some dsname, some sub))
    (hav : ctx.availableCats.contains k = true)
    (hk : ¬ k = .builtin .PUBLISHED)
    (hfl : dictGet? dsname (ctx.listings k).folder_lookup = some ds_id) :
    openFile ctx dl tmpName now maxB st path =
      match ensure_downloaded dl tmpName now maxB st.cache ds_id with
      | ⟨.error err, c, d⟩ => ⟨.error (.raised err), ⟨c, st.open_fds, st.next_fh⟩, d⟩
      | ⟨.ok _, c, d⟩ =>
          match resolve_path c ds_id sub with
          | none => ⟨.error (.errno .ENOENT), ⟨c, st.open_fds, st.next_fh⟩, d⟩
          | some real =>
              match absLookup c real with
              | some (.dir _) => ⟨.error (.errno .ENOENT), ⟨c, st.open_fds, st.next_fh⟩, d⟩
              | _ => ⟨.ok st.next_fh,
                  ⟨c, st.open_fds ++ [(st.next_fh, real)], st.next_fh + 1⟩, d⟩ := by
  unfold openFile
  rw [hparse]
  dsimp only
  rw [if_neg (show ¬¬ctx.availableCats.contains k = true by rw [hav]; exact fun h => h rfl)]
  rw [if_neg hk, hfl]
  dsimp only
  unfold runEnsure
  rcases hE : ensure_downloaded dl tmpName now maxB st.cache ds_id with ⟨res, c, d⟩
  rcases res with err | r
  all_goals try rfl
  all_goals
    try dsimp only
    cases hr : resolve_path c ds_id sub with
    | none => rfl
    | some real =>
        try dsimp only
        cases habs : absLookup c real with
        | none => rfl
        | some nd => cases nd <;> rfl

theorem resolve_path_isSome {st : CacheState} {id : Nat} {sub : String} {real : List String}
    (h : resolve_path st id sub = some real) : (absLookup st real).isSome = true := by
  unfold resolve_path at h
  dsimp only at h
  split at h <;>
  · split at h
    · split at h
      · next hex =>
          injection h with h2
          subst h2
          exact hex
      · exact absurd h (by simp)
    · exact absurd h (by simp)

theorem absLookup_dataset_append {st : CacheState} {id : Nat} {e : CEntry}
    (hlk : lookupEntry st (natToString id) = some e) (comps : List String) :
    absLookup st (datasetDirComps id ++ comps) = nodeLookup e.node comps := by
  rw [show datasetDirComps id ++ comps = cacheRootName :: (natToString id :: comps) from rfl]
  rw [absLookup_root_cons, nodeLookup_root_present hlk]

/-! ### C5 — only `readdir` and `open` download; `getattr` never does -/

/-- C5: (a) `getattr` leaves the state unchanged and performs zero downloads
on every path; (b) a stat on a standard-category content path of a dataset
never yet downloaded returns `ENOENT`, even though (c) after the one
download the very same stat reports the file; (d) `readdir` on a path
reaching into that dataset's content performs exactly one download, and (e)
`open` on the content path performs exactly one download and succeeds;
(f) once the dataset is cached, neither `readdir` nor `open` downloads
again. -/
theorem C5_stat_never_downloads
    (ctx : FSCtx) (st : SysState) (tmpName : String) (now maxB : Nat)
    {path : String} {k : CategoryKey} {dsname sub : String} {ds_id : Nat}
    {content content' : List (String × FSNode)} {sz : Nat}
    (hparse : parse_path ctx path = (.known k, some dsname, some sub))
    (hav : ctx.availableCats.contains k = true)
    (hk : ¬ k = .builtin .PUBLISHED)
    (hfl : dictGet? dsname (ctx.listings k).folder_lookup = some ds_id)
    (hnc : lookupEntry st.cache (natToString ds_id) = none)
    (hsl : startsWithSlash sub = false)
    (hdots : ∀ c ∈ parseComponents sub, c ≠ "..")
    (hun : unwrap content = .ok content')
    (hfile : nodeLookup (.dir content') (parseComponents sub) = some (.file sz))
    (hne : content'.isEmpty = false)
    (hsize : sizeChildren content' ≤ maxB)
    (hmt : ∀ x ∈ st.cache.entries, x.mtime ≤ now) :
    (∀ (st₀ : SysState) (p : String),
        (getattrOp ctx st₀ p).st = st₀ ∧ (getattrOp ctx st₀ p).dls = 0) ∧
    getattrOp ctx st path = ⟨.error (.errno .ENOENT), st, 0⟩ ∧
    (∀ st' : SysState,
        st'.cache = (ensure_downloaded (.ok content) tmpName now maxB st.cache ds_id).cache →
        getattrOp ctx st' path = ⟨.ok (.fileAttr sz), st', 0⟩) ∧
    (readdirOp ctx (.ok content) tmpName now maxB st path).dls = 1 ∧
    (openFile ctx (.ok content) tmpName now maxB st path).dls = 1 ∧
    (openFile ctx (.ok content) tmpName now maxB st path).res = .ok st.next_fh ∧
    (∀ st' : SysState,
        st'.cache = (ensure_downloaded (.ok content) tmpName now maxB st.cache ds_id).cache →
        (readdirOp ctx (.ok content) tmpName now maxB st' path).dls = 0 ∧
        (openFile ctx (.ok content) tmpName now maxB st' path).dls = 0) := by
  have hfreshNames : ∀ x ∈ st.cache.entries, x.name ≠ natToString ds_id :=
    names_ne_of_lookup_none hnc
  have hself : st.cache.entries.filter (fun x => x.name ≠ natToString ds_id) =
      st.cache.entries :=
    List.filter_eq_self.2 (fun x hx => by simp [hfreshNames x hx])
  have h1 := ensure_downloaded_not_cached (.ok content) tmpName now maxB st.cache ds_id
    (.inl hnc)
  have h2 : ensureDownload (.ok content) tmpName now maxB
      ⟨st.cache.entries.filter (fun x => x.name ≠ natToString ds_id)⟩ ds_id =
      ⟨.ok (datasetDirComps ds_id),
        evict maxB ⟨st.cache.entries ++
          [(⟨natToString ds_id, now, FSNode.dir content'⟩ : CEntry)]⟩, 1⟩ := by
    rw [hself]
    show (match unwrap content with
      | .error _ =>
          (⟨.error .unwrapFailed,
            removeEntry ⟨st.cache.entries ++ [(⟨tmpName, now, FSNode.dir content⟩ : CEntry)]⟩
              tmpName, 1⟩ : EnsureOut)
      | .ok c' =>
          ⟨.ok (datasetDirComps ds_id),
            evict maxB ⟨st.cache.entries ++
              [(⟨natToString ds_id, now, FSNode.dir c'⟩ : CEntry)]⟩, 1⟩) = _
    rw [hun]
  have hE : ensure_downloaded (.ok content) tmpName now maxB st.cache ds_id =
      ⟨.ok (datasetDirComps ds_id),
        evict maxB ⟨st.cache.entries ++
          [(⟨natToString ds_id, now, FSNode.dir content'⟩ : CEntry)]⟩, 1⟩ :=
    h1.trans h2
  have hcand : isCandidate (⟨natToString ds_id, now, FSNode.dir content'⟩ : CEntry) = true := by
    unfold isCandidate
    simp [pyIntParseable_natToString]
  have hkeep : lookupEntry
      (evict maxB ⟨st.cache.entries ++
        [(⟨natToString ds_id, now, FSNode.dir content'⟩ : CEntry)]⟩)
      (natToString ds_id) =
      some (⟨natToString ds_id, now, FSNode.dir content'⟩ : CEntry) :=
    evict_keeps_new_entry maxB st.cache.entries _ hfreshNames hmt hcand
      (by simpa [nodeSize] using hsize)
  have hmiss : getattrOp ctx st path = ⟨.error (.errno .ENOENT), st, 0⟩ := by
    rw [getattrOp_standard st hparse hav hk hfl,
      resolve_path_clean_absent hnc hsl hdots]
  have hafter : ∀ st' : SysState,
      st'.cache = (ensure_downloaded (.ok content) tmpName now maxB st.cache ds_id).cache →
      getattrOp ctx st' path = ⟨.ok (.fileAttr sz), st', 0⟩ := by
    intro st' hc
    have hkeep' : lookupEntry st'.cache (natToString ds_id) =
        some (⟨natToString ds_id, now, FSNode.dir content'⟩ : CEntry) := by
      rw [hc, hE]
      exact hkeep
    rw [getattrOp_standard st' hparse hav hk hfl,
      resolve_path_clean_present hkeep' hsl hdots]
    try dsimp only
    rw [hfile]
    simp only [Option.isSome_some, if_true]
    rw [absLookup_dataset_append hkeep']
    try dsimp only
    rw [hfile]
  have hread : (readdirOp ctx (.ok content) tmpName now maxB st path).dls = 1 := by
    rw [readdirOp_standard st hparse hav hk hfl, hE]
  have hopen : openFile ctx (.ok content) tmpName now maxB st path =
      ⟨.ok st.next_fh,
        ⟨evict maxB ⟨st.cache.entries ++
            [(⟨natToString ds_id, now, FSNode.dir content'⟩ : CEntry)]⟩,
          st.open_fds ++ [(st.next_fh, datasetDirComps ds_id ++ parseComponents sub)],
          st.next_fh + 1⟩, 1⟩ := by
    rw [openFile_standard st hparse hav hk hfl, hE]
    try dsimp only
    rw [resolve_path_clean_present hkeep hsl hdots]
    try dsimp only
    rw [hfile]
    simp only [Option.isSome_some, if_true]
    rw [absLookup_dataset_append hkeep]
    try dsimp only
    rw [hfile]
  have hcached : ∀ st' : SysState,
      st'.cache = (ensure_downloaded (.ok content) tmpName now maxB st.cache ds_id).cache →
      (readdirOp ctx (.ok content) tmpName now maxB st' path).dls = 0 ∧
      (openFile ctx (.ok content) tmpName now maxB st' path).dls = 0 := by
    intro st' hc
    have hkeep' : lookupEntry st'.cache (natToString ds_id) =
        some (⟨natToString ds_id, now, FSNode.dir content'⟩ : CEntry) := by
      rw [hc, hE]
      exact hkeep
    have hhit : ensure_downloaded (.ok content) tmpName now maxB st'.cache ds_id =
        ⟨.ok (datasetDirComps ds_id), touchEntry st'.cache (natToString ds_id) now, 0⟩ :=
      ensure_downloaded_hit (.ok content) tmpName now maxB st'.cache ds_id hkeep' rfl hne
    constructor
    · rw [readdirOp_standard st' hparse hav hk hfl, hhit]
    · rw [openFile_standard st' hparse hav hk hfl, hhit]
      try dsimp only
      cases hr : resolve_path (touchEntry st'.cache (natToString ds_id) now) ds_id sub with
      | none => rfl
      | some real =>
          try dsimp only
          cases habs : absLookup (touchEntry st'.cache (natToString ds_id) now) real with
          | none => rfl
          | some nd => cases nd <;> rfl
  exact ⟨fun st₀ p => getattrOp_frame ctx st₀ p, hmiss, hafter, hread,
    by rw [hopen], by rw [hopen], hcached⟩

/-- Concrete context for the C5 witness: one standard category holding the
dataset folder `ds` with identifier `7`. -/
def ctxW5 : FSCtx :=
  ⟨[.builtin .PUBLIC], fun _ => ⟨[("ds", 7)], [], []⟩, 0⟩

/-- Concrete starting state for the C5 witness: empty download cache. -/
def stW5 : SysState := ⟨⟨[]⟩, [], 1⟩

/-- Concrete download payload for the C5 witness: the manifest plus a single
experiment folder holding `file.txt`. -/
def contentW5 : List (String × FSNode) :=
  [("experiments.csv", .file 1), ("exp", .dir [("file.txt", .file 5)])]

theorem C5_witness :
    getattrOp ctxW5 stW5 "/Public Datasets/ds/file.txt" =
      ⟨.error (.errno .ENOENT), stW5, 0⟩ ∧
    (readdirOp ctxW5 (.ok contentW5) ".dl-7-a" 3 100 stW5 "/Public Datasets/ds/file.txt").dls
      = 1 ∧
    (openFile ctxW5 (.ok contentW5) ".dl-7-a" 3 100 stW5 "/Public Datasets/ds/file.txt").dls
      = 1 ∧
    (openFile ctxW5 (.ok contentW5) ".dl-7-a" 3 100 stW5 "/Public Datasets/ds/file.txt").res
      = .ok 1 := by
  obtain ⟨-, hb, -, hc, hd, he, -⟩ :=
    C5_stat_never_downloads ctxW5 stW5 ".dl-7-a" 3 100
      (show parse_path ctxW5 "/Public Datasets/ds/file.txt" =
        (.known (.builtin .PUBLIC), some "ds", some "file.txt") from rfl)
      rfl (by decide) rfl rfl rfl (by decide)
      (show unwrap contentW5 = .ok [("file.txt", FSNode.file 5)] from rfl)
      (show nodeLookup (.dir [("file.txt", FSNode.file 5)]) (parseComponents "file.txt") =
        some (.file 5) from rfl)
      rfl (by decide) (by intro x hx; simp [stW5] at hx)
  exact ⟨hb, hc, hd, he⟩

/-! ### C9 — which directory-shaped paths `open` rejects, and how -/

/-- C9 (amended): (i) the root, category-only and category/dataset paths —
rejected at the parse level — and (ii) Published version-level paths are
refused by `open` with `EISDIR`; (iii) a deeper path on a cached dataset
whose resolved real path is an on-disk directory is refused with `ENOENT`,
not `EISDIR`; (iv) `open` succeeds exactly on a path resolving to a regular
file, returning the next file handle. -/
theorem C9_open_directory_errors (ctx : FSCtx) (dl : Except Unit (List (String × FSNode)))
    (tmpName : String) (now maxB : Nat) (st : SysState) :
    (∀ path, (parse_path ctx path).1 = .root ∨ (parse_path ctx path).2.1 = none ∨
        (parse_path ctx path).2.2 = none →
      openFile ctx dl tmpName now maxB st path = ⟨.error (.errno .EISDIR), st, 0⟩) ∧
    (∀ path dsname sub label,
      parse_path ctx path = (.known (.builtin .PUBLISHED), some dsname, some sub) →
      ctx.availableCats.contains (.builtin .PUBLISHED) = true →
      splitFirst sub = (label, none) →
      openFile ctx dl tmpName now maxB st path = ⟨.error (.errno .EISDIR), st, 0⟩) ∧
    (∀ path k dsname sub ds_id e cs,
      parse_path ctx path = (.known k, some dsname, some sub) →
      ctx.availableCats.contains k = true →
      ¬ k = .builtin .PUBLISHED →
      dictGet? dsname (ctx.listings k).folder_lookup = some ds_id →
      lookupEntry st.cache (natToString ds_id) = some e →
      e.node = .dir cs → cs.isEmpty = false →
      startsWithSlash sub = false →
      (∀ c ∈ parseComponents sub, c ≠ "..") →
      (∀ d, nodeLookup e.node (parseComponents sub) = some (.dir d) →
        (openFile ctx dl tmpName now maxB st path).res = .error (.errno .ENOENT)) ∧
      (∀ fsz, nodeLookup e.node (parseComponents sub) = some (.file fsz) →
        (openFile ctx dl tmpName now maxB st path).res = .ok st.next_fh)) := by
  refine ⟨?_, ?_, ?_⟩
  · intro path h
    rcases hp : parse_path ctx path with ⟨c, dn, sp⟩
    rw [hp] at h
    dsimp only at h
    unfold openFile
    rw [hp]
    try dsimp only
    rcases c with _ | _ | k <;> rcases dn with _ | d <;> rcases sp with _ | s
    all_goals first | rfl | simp at h
  · intro path dsname sub label hparse hav hsplit
    unfold openFile
    rw [hparse]
    try dsimp only
    rw [if_neg (show ¬¬ctx.availableCats.contains (.builtin .PUBLISHED) = true by
      rw [hav]; exact fun h => h rfl)]
    rw [if_pos rfl, hsplit]
  · intro path k dsname sub ds_id e cs hparse hav hk hfl hlk hnode hcs hsl hdots
    have hhit : ensure_downloaded dl tmpName now maxB st.cache ds_id =
        ⟨.ok (datasetDirComps ds_id), touchEntry st.cache (natToString ds_id) now, 0⟩ :=
      ensure_downloaded_hit dl tmpName now maxB st.cache ds_id hlk hnode hcs
    have hkeep' : lookupEntry (touchEntry st.cache (natToString ds_id) now)
        (natToString ds_id) = some ⟨e.name, now, e.node⟩ :=
      touch_keeps_entry st.cache _ now hlk
    constructor
    · intro d hd
      rw [openFile_standard st hparse hav hk hfl, hhit]
      try dsimp only
      rw [resolve_path_clean_present hkeep' hsl hdots]
      try dsimp only
      rw [hd]
      simp only [Option.isSome_some, if_true]
      rw [absLookup_dataset_append hkeep']
      try dsimp only
      rw [hd]
    · intro fsz hf
      rw [openFile_standard st hparse hav hk hfl, hhit]
      try dsimp only
      rw [resolve_path_clean_present hkeep' hsl hdots]
      try dsimp only
      rw [hf]
      simp only [Option.isSome_some, if_true]
      rw [absLookup_dataset_append hkeep']
      try dsimp only
      rw [hf]

/-- Concrete context for the C9 witness: a standard category and the
Published category, each listing dataset folder `ds` (identifier `7`),
whose Published version map has the single label `Original`. -/
def ctxW9 : FSCtx :=
  ⟨[.builtin .PUBLIC, .builtin .PUBLISHED],
    fun _ => ⟨[("ds", 7)], [], [("ds", [("Original", 7)])]⟩, 0⟩

/-- Concrete state for the C9 witness: dataset `7` is cached with a regular
file and a subdirectory. -/
def stW9 : SysState :=
  ⟨⟨[⟨"7", 1, .dir [("file.txt", .file 5), ("d", .dir [("x", .file 1)])]⟩]⟩, [], 4⟩

theorem C9_witness :
    openFile ctxW9 (.error ()) "t" 2 100 stW9 "/" = ⟨.error (.errno .EISDIR), stW9, 0⟩ ∧
    openFile ctxW9 (.error ()) "t" 2 100 stW9 "/Public Datasets" =
      ⟨.error (.errno .EISDIR), stW9, 0⟩ ∧
    openFile ctxW9 (.error ()) "t" 2 100 stW9 "/Public Datasets/ds" =
      ⟨.error (.errno .EISDIR), stW9, 0⟩ ∧
    openFile ctxW9 (.error ()) "t" 2 100 stW9 "/Published Datasets/ds/Original" =
      ⟨.error (.errno .EISDIR), stW9, 0⟩ ∧
    (openFile ctxW9 (.error ()) "t" 2 100 stW9 "/Public Datasets/ds/d").res =
      .error (.errno .ENOENT) ∧
    (openFile ctxW9 (.error ()) "t" 2 100 stW9 "/Public Datasets/ds/file.txt").res =
      .ok 4 := by
  obtain ⟨h1, h2, h3⟩ := C9_open_directory_errors ctxW9 (.error ()) "t" 2 100 stW9
  refine ⟨h1 "/" (.inl rfl), h1 "/Public Datasets" (.inr (.inl rfl)),
    h1 "/Public Datasets/ds" (.inr (.inr rfl)),
    h2 "/Published Datasets/ds/Original" "ds" "Original" "Original" rfl rfl rfl, ?_, ?_⟩
  · exact (h3 "/Public Datasets/ds/d" (.builtin .PUBLIC) "ds" "d" 7
      ⟨"7", 1, .dir [("file.txt", .file 5), ("d", .dir [("x", .file 1)])]⟩
      [("file.txt", .file 5), ("d", .dir [("x", .file 1)])]
      rfl rfl (by decide) rfl rfl rfl rfl rfl (by decide)).1
      [("x", FSNode.file 1)] rfl
  · exact (h3 "/Public Datasets/ds/file.txt" (.builtin .PUBLIC) "ds" "file.txt" 7
      ⟨"7", 1, .dir [("file.txt", .file 5), ("d", .dir [("x", .file 1)])]⟩
      [("file.txt", .file 5), ("d", .dir [("x", .file 1)])]
      rfl rfl (by decide) rfl rfl rfl rfl rfl (by decide)).2 5 rfl

end UsnanFuse
